import Mathlib

/-!
# Verification of the PHP translation-file engine

Shallow embedding of the core of the `wefrh_trans` repository
(`attached_assets/file_handler.py` and `attached_assets/utils.py`):
pair extraction from PHP array sources, the `needs_translation`
classifier, the Arabic majority-script test, line-addressed rewriting,
the translation cache, the similarity grouper and the load chain.

Texts are modelled as `List Char`.  Python's Unicode character classes
are modelled on the alphabet the program distinguishes: Latin letters,
ASCII digits, the underscore, the Arabic blocks U+0600–U+06FF,
U+0750–U+077F and U+08A0–U+08FF (with the Arabic-Indic digit rows
U+0660–U+0669 and U+06F0–U+06F9 counted as digits), whitespace, and
everything else as symbols.  Every character of the Arabic blocks other
than the digit rows is treated as a word character; this matches CPython
on the letters the program manipulates.
-/

namespace WefrhTrans

/-- Latin letter, the `[a-zA-Z]` class. -/
def isLatinLetter (c : Char) : Bool :=
  ('a' ≤ c && c ≤ 'z') || ('A' ≤ c && c ≤ 'Z')

/-- ASCII digit `[0-9]`. -/
def isAsciiDigit (c : Char) : Bool :=
  '0' ≤ c && c ≤ '9'

/-- A character of the Arabic ranges counted by `has_arabic_content`:
`[؀-ۿݐ-ݿࢠ-ࣿ]`. -/
def isArabicChar (c : Char) : Bool :=
  (0x600 ≤ c.toNat && c.toNat ≤ 0x6FF) ||
  (0x750 ≤ c.toNat && c.toNat ≤ 0x77F) ||
  (0x8A0 ≤ c.toNat && c.toNat ≤ 0x8FF)

/-- Python's `\d`, restricted to the modelled scripts: ASCII digits and
the Arabic-Indic digit rows. -/
def isDigitChar (c : Char) : Bool :=
  isAsciiDigit c ||
  (0x660 ≤ c.toNat && c.toNat ≤ 0x669) ||
  (0x6F0 ≤ c.toNat && c.toNat ≤ 0x6F9)

/-- Python's `\s` (ASCII whitespace; lines never contain the exotic
Unicode spaces the program does not produce). -/
def isSpaceChar (c : Char) : Bool :=
  c = ' ' || c = '\t' || c = '\n' || c = '\r' ||
  c = '\x0b' || c = '\x0c'

/-- Python's `\w` on the modelled alphabet: Latin letters, digits,
underscore, and the (non-digit) characters of the Arabic blocks. -/
def isWordChar (c : Char) : Bool :=
  isLatinLetter c || isDigitChar c || c = '_' || isArabicChar c

/-- Python `str.strip()`: drop leading and trailing whitespace. -/
def stripChars (cs : List Char) : List Char :=
  (((cs.dropWhile (fun c => isSpaceChar c)).reverse.dropWhile
      (fun c => isSpaceChar c)).reverse)

/-- Python `str.lower()` on the modelled alphabet (ASCII case folding;
Arabic has no case). -/
def lowerChars (cs : List Char) : List Char :=
  cs.map Char.toLower

/-- `utils.has_arabic_content`: strip symbols (`[^\w\s]`) and digit runs
(`\d+`), then require `arabic_chars / total_chars > 0.5`.  The ratio
test is written in the exact integer form `total < 2 * arabic`, which
is equivalent to the source's real-number comparison
(`hasArabicContent_ratio` below proves the equivalence). -/
def hasArabicContent (text : List Char) : Bool :=
  if text = [] then false
  else
    let clean₁ := text.filter (fun c => isWordChar c || isSpaceChar c)
    let clean₂ := clean₁.filter (fun c => !isDigitChar c)
    let arabicChars := (clean₂.filter (fun c => isArabicChar c)).length
    let totalChars :=
      (clean₂.filter (fun c => isLatinLetter c || isArabicChar c)).length
    if totalChars = 0 then false
    else totalChars < 2 * arabicChars

/-- `utils.clean_text_for_cache`: empty stays empty, otherwise
lowercase and trim. -/
def cleanTextForCache (text : List Char) : List Char :=
  if text = [] then []
  else stripChars (lowerChars text)

/-- The translation cache (`utils.TranslationCache`), modelled as an
association list read through its first matching key: inserting
prepends, which matches `dict` overwrite semantics for lookups. -/
def Cache : Type := List (List Char × List Char)

/-- `TranslationCache.get`: look the normalized text up; absent keys
yield `none` (Python `dict.get`, which never raises). -/
def cacheGet (cache : Cache) (text : List Char) : Option (List Char) :=
  (cache.find? (fun p => p.1 = cleanTextForCache text)).map Prod.snd

/-- `TranslationCache.set`: store under the normalized text. -/
def cacheSet (cache : Cache) (text translation : List Char) : Cache :=
  (cleanTextForCache text, translation) :: cache

/-- The set of normalized keys present in the cache. -/
def cacheKeys (cache : Cache) : List (List Char) :=
  cache.map Prod.fst

/-- `pat` is a prefix of `cs` (Python `str.startswith`). -/
def startsWith : List Char → List Char → Bool
  | [], _ => true
  | _ :: _, [] => false
  | p :: ps, c :: cs => p = c && startsWith ps cs

/-- Python `'\n'.split` of the source: `s.split('\n')`. -/
def splitLines : List Char → List (List Char)
  | [] => [[]]
  | c :: cs =>
    match splitLines cs with
    | [] => [[]]
    | l :: ls => if c = '\n' then [] :: l :: ls else (c :: l) :: ls

/-- Python `'\n'.join`. -/
def joinLines : List (List Char) → List Char
  | [] => []
  | l :: ls =>
    match ls with
    | [] => l
    | _ :: _ => l ++ '\n' :: joinLines ls

/-- Python `str.replace(old, new)` for non-empty `old`: leftmost,
non-overlapping.  Fuelled to stay kernel-computable; the callers pass
`length + 1`, which is always sufficient. -/
def replaceSubNE (pat rep : List Char) : Nat → List Char → List Char
  | _, [] => []
  | 0, cs => cs
  | fuel+1, c :: cs =>
    if startsWith pat (c :: cs) then
      rep ++ replaceSubNE pat rep fuel ((c :: cs).drop pat.length)
    else c :: replaceSubNE pat rep fuel cs

/-- Python `str.replace("", new)`: the replacement is inserted between
every character and at both ends. -/
def interleaveRep (rep : List Char) : List Char → List Char
  | [] => rep
  | c :: cs => rep ++ c :: interleaveRep rep cs

/-- Python `str.replace`. -/
def pyReplace (s old new : List Char) : List Char :=
  if old = [] then interleaveRep new s
  else replaceSubNE old new (s.length + 1) s

/-- `re.sub(r'\\[a-zA-Z]', '', t)`: drop backslash-letter pairs,
leftmost, non-overlapping. -/
def removeBackslashLetter : Nat → List Char → List Char
  | _, [] => []
  | 0, cs => cs
  | fuel+1, c :: cs =>
    match cs with
    | [] => [c]
    | d :: rest =>
      if c = '\\' && isLatinLetter d then removeBackslashLetter fuel rest
      else c :: removeBackslashLetter fuel cs

/-- `PHPFileHandler._clean_extracted_text`: strip, un-escape
`\n`, `\t`, `\"`, `\'` in that order, then drop remaining
backslash-letter escapes. -/
def cleanExtractedText (text : List Char) : List Char :=
  if text = [] then []
  else
    let t₁ := stripChars text
    let t₂ := pyReplace t₁ ['\\', 'n'] ['\n']
    let t₃ := pyReplace t₂ ['\\', 't'] ['\t']
    let t₄ := pyReplace t₃ ['\\', '"'] ['"']
    let t₅ := pyReplace t₄ ['\\', '\''] ['\'']
    removeBackslashLetter (t₅.length + 1) t₅

/-- The symbol class of `_is_valid_translation_pair`'s rejection regex
(U+0060 is the backquote). -/
def isProgSymbolChar (c : Char) : Bool :=
  c = '{' || c = '}' || c = '[' || c = ']' || c = '<' || c = '>' ||
  c = '/' || c = '\\' || c = '$' || c = '#' || c = '@' || c = '%' ||
  c = '^' || c = '&' || c = '*' || c = '(' || c = ')' || c = '+' ||
  c = '=' || c = '|' || c = '~' || c = Char.ofNat 0x60

/-- `PHPFileHandler._is_valid_translation_pair`: both parts non-empty,
key at most 100 and value at most 500 characters, and the value is not
made of programming symbols only. -/
def isValidTranslationPair (key value : List Char) : Bool :=
  if key = [] || value = [] then false
  else if key.length > 100 || value.length > 500 then false
  else if value.all isProgSymbolChar then false
  else true

/-- Python `str.isdigit` on the modelled alphabet. -/
def pyIsDigit (t : List Char) : Bool :=
  t ≠ [] && t.all isDigitChar

/-- `^\$\w+$`. -/
def matchDollarVar : List Char → Bool
  | [] => false
  | c :: rest => c = '$' && rest ≠ [] && rest.all isWordChar

/-- `^\{\{.*\}\}$` (`.` does not cross a newline). -/
def matchTemplateVar (t : List Char) : Bool :=
  t.length ≥ 4 && startsWith ['{', '{'] t &&
  startsWith ['}', '}'] t.reverse &&
  ((t.drop 2).take (t.length - 4)).all (fun c => c ≠ '\n')

/-- `^\w+\(\)$`. -/
def matchFuncCall (t : List Char) : Bool :=
  let w := t.takeWhile isWordChar
  w ≠ [] && t.drop w.length = ['(', ')']

/-- `^[^\w\s]+$`. -/
def matchSymbolsOnly (t : List Char) : Bool :=
  t ≠ [] && t.all (fun c => !isWordChar c && !isSpaceChar c)

/-- `^\w+\.\w+$`. -/
def matchFileExt (t : List Char) : Bool :=
  let a := t.takeWhile isWordChar
  a ≠ [] &&
  (match t.drop a.length with
   | '.' :: b => b ≠ [] && b.all isWordChar
   | _ => false)

/-- `^https?://`. -/
def matchUrl (t : List Char) : Bool :=
  startsWith ('h' :: 't' :: 't' :: 'p' :: ':' :: '/' :: '/' :: []) t ||
  startsWith ('h' :: 't' :: 't' :: 'p' :: 's' :: ':' :: '/' :: '/' :: []) t

/-- `^mailto:`. -/
def matchMailto (t : List Char) : Bool :=
  startsWith ('m' :: 'a' :: 'i' :: 'l' :: 't' :: 'o' :: ':' :: []) t

/-- `^\d+[\.\-\s]*\d*$`. -/
def matchNumericSep (t : List Char) : Bool :=
  let d := t.takeWhile isDigitChar
  if d = [] then false
  else
    let r := t.drop d.length
    let s := r.takeWhile (fun c => c = '.' || c = '-' || isSpaceChar c)
    (r.drop s.length).all isDigitChar

/-- `^[A-Z_]+$`. -/
def matchConstant (t : List Char) : Bool :=
  t ≠ [] && t.all (fun c => ('A' ≤ c && c ≤ 'Z') || c = '_')

/-- `^\w+\[\d+\]$`. -/
def matchArrayIndex (t : List Char) : Bool :=
  let w := t.takeWhile isWordChar
  w ≠ [] &&
  (match t.drop w.length with
   | '[' :: r₂ =>
     let dd := r₂.takeWhile isDigitChar
     dd ≠ [] && r₂.drop dd.length = [']']
   | _ => false)

/-- `^<[^>]+>$`. -/
def matchHtmlTag : List Char → Bool
  | '<' :: rest =>
    rest.dropLast ≠ [] && rest.getLast? = some '>' &&
    rest.dropLast.all (fun c => c ≠ '>')
  | _ => false

/-- One of the ten `programming_patterns` of `_needs_translation`
matches the (stripped) text. -/
def matchesProgrammingPattern (t : List Char) : Bool :=
  matchDollarVar t || matchTemplateVar t || matchFuncCall t ||
  matchSymbolsOnly t || matchFileExt t || matchUrl t || matchMailto t ||
  matchNumericSep t || matchConstant t || matchArrayIndex t

/-- Count of `\b[a-zA-Z]+\b` matches: maximal Latin-letter runs whose
neighbours on both sides are non-word characters (or the string ends).
Fuelled scanner carrying whether the previous character is a word
character. -/
def countLatinWordsGo : Nat → Bool → List Char → Nat
  | _, _, [] => 0
  | 0, _, _ => 0
  | fuel+1, prevWord, c :: cs =>
    if isLatinLetter c && !prevWord then
      let rest := (c :: cs).dropWhile isLatinLetter
      let tok : Nat :=
        match rest with
        | [] => 1
        | d :: _ => if isWordChar d then 0 else 1
      tok + countLatinWordsGo fuel true rest
    else countLatinWordsGo fuel (isWordChar c) cs

/-- `len(re.findall(r'\b[a-zA-Z]+\b', text))`. -/
def countLatinWords (t : List Char) : Nat :=
  countLatinWordsGo (t.length + 1) false t

/-- `len(re.findall(r'[^\w\s]', text))`. -/
def countSymbols (t : List Char) : Nat :=
  (t.filter (fun c => !isWordChar c && !isSpaceChar c)).length

/-- `PHPFileHandler._needs_translation`: the ordered
exclusion cascade, then "has a Latin letter and a word token". -/
def needsTranslation (text : List Char) : Bool :=
  if text = [] then false
  else
    let t := stripChars text
    if t.length < 2 then false
    else if pyIsDigit t then false
    else if matchesProgrammingPattern t then false
    else if matchHtmlTag t then false
    else if hasArabicContent t then false
    else if countSymbols t > countLatinWords t && countLatinWords t < 3 then false
    else t.any isLatinLetter && countLatinWords t > 0

/-- One extracted candidate (`translation_item` dict). -/
structure TItem where
  line_number : Int
  key : List Char
  original_value : List Char
  translated_value : List Char
  is_translated : Bool
  original_line : List Char
  needs_translation : Bool
  pattern_used : Nat
  translation_type : List Char
deriving DecidableEq, Repr, Inhabited

/-- An `Option Nat` upper bound test for the bounded repetitions of the
large-file patterns. -/
def boundOk : Option Nat → Nat → Bool
  | none, _ => true
  | some m, n => n ≤ m

/-- Match one of the four quote patterns
(`q1 key q1 \s* => \s* q2 value q2`) at the start of `cs`; the key run
is bounded by `minK`/`maxK` and the value run by `maxV` (the length
bounds of the regex repetitions — a bounded class run can only match if
the distance to the next closing quote is within the bound).  Returns
the two groups and the rest of the string after the match. -/
def quotePairMatchAt (q1 q2 : Char) (minK : Nat) (maxK maxV : Option Nat) :
    List Char → Option (List Char × List Char × List Char)
  | [] => none
  | c :: cs₁ =>
    if c = q1 then
      let key := cs₁.takeWhile (fun d => d ≠ q1)
      match cs₁.dropWhile (fun d => d ≠ q1) with
      | _ :: r₂ =>
        if minK ≤ key.length && boundOk maxK key.length then
          let r₃ := r₂.dropWhile isSpaceChar
          match r₃ with
          | '=' :: '>' :: r₄ =>
            let r₅ := r₄.dropWhile isSpaceChar
            match r₅ with
            | e :: r₆ =>
              if e = q2 then
                let v := r₆.takeWhile (fun d => d ≠ q2)
                match r₆.dropWhile (fun d => d ≠ q2) with
                | _ :: r₈ =>
                  if boundOk maxV v.length then some (key, v, r₈) else none
                | [] => none
              else none
            | [] => none
          | _ => none
        else none
      | [] => none
    else none

/-- `re.finditer` for a quote pattern: scan left to right, emit
non-overlapping matches, continue after each match.  Fuelled: callers
pass `length + 1`, sufficient because every step strictly shortens the
string. -/
def findPairsGo (q1 q2 : Char) (minK : Nat) (maxK maxV : Option Nat) :
    Nat → List Char → List (List Char × List Char)
  | _, [] => []
  | 0, _ => []
  | fuel+1, c :: cs =>
    match quotePairMatchAt q1 q2 minK maxK maxV (c :: cs) with
    | some (k, v, rest) => (k, v) :: findPairsGo q1 q2 minK maxK maxV fuel rest
    | none => findPairsGo q1 q2 minK maxK maxV fuel cs

/-- All `(key, value)` matches of one quote pattern on a line. -/
def findPairs (q1 q2 : Char) (minK : Nat) (maxK maxV : Option Nat)
    (line : List Char) : List (List Char × List Char) :=
  findPairsGo q1 q2 minK maxK maxV (line.length + 1) line

/-- A line is skipped when blank after stripping or starting with
`//`, `/*`, `*` or `#`. -/
def lineSkipped (line : List Char) : Bool :=
  let s := stripChars line
  s = [] || startsWith ['/', '/'] s || startsWith ['/', '*'] s ||
  startsWith ['*'] s || startsWith ['#'] s

/-- Pattern matches of pattern index `pi` on a line; `bounded` selects
the large-file patterns (`{2,100}` keys, `{0,200}` values). -/
def pairsOfPattern (bounded : Bool) (q1 q2 : Char) (line : List Char) :
    List (List Char × List Char) :=
  if bounded then findPairs q1 q2 2 (some 100) (some 200) line
  else findPairs q1 q2 1 none none line

/-- Build the `translation_item` record from one regex match. -/
def itemFromPair (ln : Int) (line : List Char) (bounded : Bool)
    (patternIndex : Nat) (kv : List Char × List Char) : Option TItem :=
  let key := cleanExtractedText kv.1
  let value := cleanExtractedText kv.2
  if isValidTranslationPair key value then
    some { line_number := ln, key := key, original_value := value,
           translated_value := value,
           is_translated := hasArabicContent value,
           original_line :=
             if bounded then (stripChars line).take 500 else stripChars line,
           needs_translation := needsTranslation value,
           pattern_used := patternIndex,
           translation_type := 'n' :: 'o' :: 'n' :: 'e' :: [] }
  else none

/-- Items extracted from a single line: skip blank/comment lines, in
large-file mode skip lines over 1000 characters, then run the four
patterns in order. -/
def itemsOfLine (ln : Int) (line : List Char) (bounded : Bool) : List TItem :=
  if lineSkipped line then []
  else if bounded && line.length > 1000 then []
  else
    ((pairsOfPattern bounded '\'' '\'' line).filterMap
        (itemFromPair ln line bounded 0)) ++
    ((pairsOfPattern bounded '"' '"' line).filterMap
        (itemFromPair ln line bounded 1)) ++
    ((pairsOfPattern bounded '\'' '"' line).filterMap
        (itemFromPair ln line bounded 2)) ++
    ((pairsOfPattern bounded '"' '\'' line).filterMap
        (itemFromPair ln line bounded 3))

/-- Process a run of lines whose first line has 0-based global index
`n` (so line numbers are `n+1`, `n+2`, …). -/
def processLinesGo (bounded : Bool) : Nat → List (List Char) → List TItem
  | _, [] => []
  | n, l :: ls =>
    itemsOfLine ((n : Int) + 1) l bounded ++ processLinesGo bounded (n + 1) ls

/-- `PHPFileHandler._extract_translations_standard`. -/
def extractStandard (source : List Char) : List TItem :=
  processLinesGo false 0 (splitLines source)

/-- The chunk loop of `_extract_translations_optimized`: slices of
10000 lines, processed with their global start offset. -/
def chunkedGo : Nat → Nat → List (List Char) → List TItem
  | _, _, [] => []
  | 0, _, _ => []
  | fuel+1, start, ls =>
    processLinesGo true start (ls.take 10000) ++
    chunkedGo fuel (start + 10000) (ls.drop 10000)

/-- The optimized extraction before deduplication. -/
def rawExtractOptimized (source : List Char) : List TItem :=
  chunkedGo ((splitLines source).length + 1) 0 (splitLines source)

/-- The deduplication key `(key.lower(), original_value.lower())`. -/
def pairKey (it : TItem) : List Char × List Char :=
  (lowerChars it.key, lowerChars it.original_value)

/-- The loop of `_deduplicate_translations` with its `seen` set. -/
def dedupGo (seen : List (List Char × List Char)) :
    List TItem → List TItem
  | [] => []
  | it :: rest =>
    if pairKey it ∈ seen then dedupGo seen rest
    else it :: dedupGo (pairKey it :: seen) rest

/-- `PHPFileHandler._deduplicate_translations`. -/
def deduplicateTranslations (items : List TItem) : List TItem :=
  dedupGo [] items

/-- `PHPFileHandler._extract_translations_optimized`. -/
def extractTranslationsOptimized (source : List Char) : List TItem :=
  deduplicateTranslations (rawExtractOptimized source)

/-- `PHPFileHandler._extract_translations`: large sources (over 100000
characters) take the optimized path. -/
def extractTranslations (source : List Char) : List TItem :=
  if source.length > 100000 then extractTranslationsOptimized source
  else extractStandard source

/-- `pat in s` (Python substring test). -/
def hasSubstring (pat : List Char) : List Char → Bool
  | [] => startsWith pat []
  | c :: cs => startsWith pat (c :: cs) || hasSubstring pat cs

/-- `new_value.replace("'", "\\'").replace('"', '\\"')` of
`_update_line_translation`. -/
def escapeQuotesValue (v : List Char) : List Char :=
  pyReplace (pyReplace v ['\''] ['\\', '\'']) ['"'] ['\\', '"']

/-- Whether an optional character is a word character (`\b` treats a
missing neighbour as non-word). -/
def wordB : Option Char → Bool
  | none => false
  | some c => isWordChar c

/-- A `\b` word boundary between two (optional) neighbours. -/
def boundaryAt (a b : Option Char) : Bool :=
  wordB a != wordB b

/-- A replacement-pattern matcher: given the previous character and the
remaining text, return the number of characters the match consumes and
the text it is rewritten to.  The `re.sub` replacement templates only
splice the literal match groups around the (literal) replacement text,
so the emitted text fully describes the substitution. -/
def ReplMatcher : Type :=
  Option Char → List Char → Option (Nat × List Char)

/-- Consume one expected literal character. -/
def expectLit (x : Char) : List Char → Option (List Char)
  | c :: cs => if c = x then some cs else none
  | [] => none

/-- Consume an expected literal string. -/
def expectStr (pat : List Char) (cs : List Char) : Option (List Char) :=
  if startsWith pat cs then some (cs.drop pat.length) else none

/-- Matcher for the quote replacement patterns
`(q1 orig q1 \s* => \s* q2)([^q2]*) q2` with template
`\1 new q2`: the emitted text is group 1 followed by the replacement
value and the closing quote. -/
def quoteReplMatcher (q1 q2 : Char) (orig newSafe : List Char) :
    ReplMatcher := fun _ cs =>
  match expectLit q1 cs with
  | none => none
  | some r₀ =>
  match expectStr orig r₀ with
  | none => none
  | some r₁ =>
  match expectLit q1 r₁ with
  | none => none
  | some r₂ =>
  let ws₁ := r₂.takeWhile isSpaceChar
  match expectStr ('=' :: '>' :: []) (r₂.drop ws₁.length) with
  | none => none
  | some r₄ =>
  let ws₂ := r₄.takeWhile isSpaceChar
  match expectLit q2 (r₄.drop ws₂.length) with
  | none => none
  | some r₆ =>
  let v := r₆.takeWhile (fun d => d ≠ q2)
  match expectLit q2 (r₆.drop v.length) with
  | none => none
  | some _ =>
    let group₁ := q1 :: orig ++ q1 :: ws₁ ++ '=' :: '>' :: ws₂ ++ [q2]
    some (group₁.length + v.length + 1, group₁ ++ newSafe ++ [q2])

/-- Matcher for the bare pattern `\b orig \b` with the replacement
value as template (an empty `orig` gives the zero-width `\b\b`). -/
def bareMatcher (orig newSafe : List Char) : ReplMatcher := fun prev cs =>
  match orig with
  | [] => if boundaryAt prev cs.head? then some (0, newSafe) else none
  | o :: _ =>
    if startsWith orig cs && boundaryAt prev (some o) &&
       boundaryAt orig.getLast? (cs.drop orig.length).head? then
      some (orig.length, newSafe)
    else none

/-- `re.sub` over the whole string: leftmost, non-overlapping; a
zero-width match emits its replacement and the scanner then copies one
character (CPython ≥ 3.7 semantics).  Fuelled with `length + 1`, always
sufficient since each step consumes at least one character. -/
def subAllGo (matcher : ReplMatcher) :
    Nat → Option Char → List Char → List Char
  | _, prev, [] =>
    match matcher prev [] with
    | some (_, out) => out
    | none => []
  | 0, _, cs => cs
  | fuel+1, prev, c :: cs =>
    match matcher prev (c :: cs) with
    | some (0, out) => out ++ c :: subAllGo matcher fuel (some c) cs
    | some (n+1, out) =>
      out ++ subAllGo matcher fuel ((c :: cs).get? n) ((c :: cs).drop (n + 1))
    | none => c :: subAllGo matcher fuel (some c) cs

/-- `re.sub(pattern, repl, line)`. -/
def subAll (matcher : ReplMatcher) (line : List Char) : List Char :=
  subAllGo matcher (line.length + 1) none line

/-- `re.search(pattern, line)`: some position matches. -/
def searchAnyGo (matcher : ReplMatcher) : Option Char → List Char → Bool
  | prev, [] => (matcher prev []).isSome
  | prev, c :: cs =>
    (matcher prev (c :: cs)).isSome || searchAnyGo matcher (some c) cs

/-- `re.search` from the start of the line. -/
def searchAny (matcher : ReplMatcher) (line : List Char) : Bool :=
  searchAnyGo matcher none line

/-- One step of the replacement loop: if the pattern occurs, substitute
everywhere; keep the result only if it changed the line. -/
def tryPattern (matcher : ReplMatcher) (line : List Char) :
    Option (List Char) :=
  if searchAny matcher line then
    let u := subAll matcher line
    if u ≠ line then some u else none
  else none

/-- `PHPFileHandler._update_line_translation`: the four quote patterns,
the bare word-boundary pattern, then a plain substring replace; the
`pattern_used` argument is accepted and ignored, as in the source. -/
def updateLineTranslation (line origValue newValue : List Char)
    (patternUsed : Nat) : List Char :=
  let newSafe := escapeQuotesValue newValue
  match tryPattern (quoteReplMatcher '\'' '\'' origValue newSafe) line with
  | some u => u
  | none =>
  match tryPattern (quoteReplMatcher '"' '"' origValue newSafe) line with
  | some u => u
  | none =>
  match tryPattern (quoteReplMatcher '\'' '"' origValue newSafe) line with
  | some u => u
  | none =>
  match tryPattern (quoteReplMatcher '"' '\'' origValue newSafe) line with
  | some u => u
  | none =>
  match tryPattern (bareMatcher origValue newSafe) line with
  | some u => u
  | none =>
    if hasSubstring origValue line then pyReplace line origValue newSafe
    else line

/-- The per-item guard of `_build_new_content`: only translated,
Arabic-containing, actually-changed items are applied. -/
def rewriteGuard (it : TItem) : Bool :=
  it.is_translated && hasArabicContent it.translated_value &&
  it.translated_value ≠ it.original_value

/-- One iteration of the `_build_new_content` loop over the line
list. -/
def applyItemToLines (ls : List (List Char)) (it : TItem) :
    List (List Char) :=
  if rewriteGuard it then
    let idx := it.line_number - 1
    if 0 ≤ idx ∧ idx < (ls.length : Int) then
      match ls.get? idx.toNat with
      | some originalLine =>
        let updated :=
          updateLineTranslation originalLine it.original_value
            it.translated_value it.pattern_used
        if updated ≠ originalLine then ls.set idx.toNat updated else ls
      | none => ls
    else ls
  else ls

/-- Insert an item into a descending-by-`line_number` list, after every
element with a strictly larger line number (so earlier elements with an
equal key stay first — the stability of Python's `sorted`). -/
def insertDesc (x : TItem) : List TItem → List TItem
  | [] => [x]
  | y :: ys =>
    if y.line_number > x.line_number then y :: insertDesc x ys
    else x :: y :: ys

/-- `sorted(self.translations, key=lambda x: x['line_number'],
reverse=True)` — a stable descending sort (stable insertion sort, which
agrees with CPython's stable sort on every input). -/
def sortByLineDesc : List TItem → List TItem
  | [] => []
  | x :: xs => insertDesc x (sortByLineDesc xs)

/-- `PHPFileHandler._build_new_content`. -/
def buildNewContent (source : List Char) (items : List TItem) : List Char :=
  joinLines ((sortByLineDesc items).foldl applyItemToLines
    (splitLines source))

/-- Replace the `n`-th element of a list. -/
def modifyNth (f : α → α) : Nat → List α → List α
  | _, [] => []
  | 0, x :: xs => f x :: xs
  | n+1, x :: xs => x :: modifyNth f n xs

/-- The three field writes of `update_translation`. -/
def setItemFields (it : TItem) (text ttype : List Char) : TItem :=
  { it with translated_value := text,
            is_translated := hasArabicContent text,
            translation_type := ttype }

/-- The mutable handler state the claims touch: the item list and the
`modified` flag. -/
structure HandlerState where
  translations : List TItem
  modified : Bool
deriving DecidableEq, Repr

/-- `PHPFileHandler.update_translation`: in range it rewrites the three
fields, sets `modified` and returns `True`; out of range it returns
`False` and leaves the state alone. -/
def updateTranslation (st : HandlerState) (index : Int)
    (text ttype : List Char) : HandlerState × Bool :=
  if 0 ≤ index ∧ index < (st.translations.length : Int) then
    (⟨modifyNth (fun it => setItemFields it text ttype) index.toNat
        st.translations, true⟩, true)
  else (st, false)

/-- A sequence of `update_translation` calls. -/
def applyUpdates (st : HandlerState)
    (ops : List (Int × List Char × List Char)) : HandlerState :=
  ops.foldl (fun s op => (updateTranslation s op.1 op.2.1 op.2.2).1) st

/-- The fields of an item that `update_translation` must never touch. -/
def frozenFieldsEq (a b : TItem) : Prop :=
  a.original_value = b.original_value ∧ a.key = b.key ∧
  a.line_number = b.line_number ∧
  a.needs_translation = b.needs_translation ∧
  a.pattern_used = b.pattern_used

/-- Relation between an item and its pre-update ancestor: frozen fields
agree, and either the `is_translated` flag is the majority-script test
of the current `translated_value`, or neither of the two mutable fields
was ever touched. -/
def updateReach (a b : TItem) : Prop :=
  frozenFieldsEq a b ∧
  (a.is_translated = hasArabicContent a.translated_value ∨
   (a.translated_value = b.translated_value ∧
    a.is_translated = b.is_translated))

/-- Shorthand for building a concrete item (used by witnesses and
counterexamples). -/
def mkItem (ln : Int) (key origv transv : List Char) (isTr : Bool)
    (pu : Nat) : TItem :=
  { line_number := ln
    key := key
    original_value := origv
    translated_value := transv
    is_translated := isTr
    original_line := []
    needs_translation := true
    pattern_used := pu
    translation_type := [] }

/-- The item extracted from `'greeting' => 'hello world',` (used by
the C6 witness). -/
def c6SampleExtracted : TItem :=
  { line_number := 1
    key := "greeting".toList
    original_value := "hello world".toList
    translated_value := "hello world".toList
    is_translated := false
    original_line := "'greeting' => 'hello world',".toList
    needs_translation := true
    pattern_used := 0
    translation_type := "none".toList }

/-- Item whose key equals its original value — the C3 counterexample:
the bare `\b`-pattern fallback of a second rebuild rewrites the key. -/
def c3Item : TItem := mkItem 1 "hi".toList "hi".toList "عالم".toList true 0

/-- Item whose translation contains a newline — the C2 line-count
counterexample. -/
def c2Item : TItem :=
  mkItem 1 "k".toList "hello".toList ('ع' :: '\n' :: 'ب' :: []) true 0

/-- The same item after `update_translation(0, "مرحبا", "manual")`. -/
def c6SampleUpdated : TItem :=
  { line_number := 1
    key := "greeting".toList
    original_value := "hello world".toList
    translated_value := "مرحبا".toList
    is_translated := true
    original_line := "'greeting' => 'hello world',".toList
    needs_translation := true
    pattern_used := 0
    translation_type := "manual".toList }

/-- A file byte. -/
def Byte : Type := Fin 256

/-- Strict UTF-8 decoding (CPython's `utf-8` codec): rejects overlong
forms, surrogates and code points above U+10FFFF. -/
def utf8Decode : List Byte → Option (List Char)
  | [] => some []
  | b :: rest =>
    if b.val < 0x80 then
      (utf8Decode rest).map (Char.ofNat b.val :: ·)
    else if 0xC2 ≤ b.val && b.val ≤ 0xDF then
      match rest with
      | b₂ :: rest₂ =>
        if 0x80 ≤ b₂.val && b₂.val ≤ 0xBF then
          (utf8Decode rest₂).map
            (Char.ofNat ((b.val - 0xC0) * 0x40 + (b₂.val - 0x80)) :: ·)
        else none
      | [] => none
    else if 0xE0 ≤ b.val && b.val ≤ 0xEF then
      match rest with
      | b₂ :: b₃ :: rest₃ =>
        let lo₂ := if b.val = 0xE0 then 0xA0 else 0x80
        let hi₂ := if b.val = 0xED then 0x9F else 0xBF
        if lo₂ ≤ b₂.val && b₂.val ≤ hi₂ &&
           0x80 ≤ b₃.val && b₃.val ≤ 0xBF then
          (utf8Decode rest₃).map
            (Char.ofNat ((b.val - 0xE0) * 0x1000 +
              (b₂.val - 0x80) * 0x40 + (b₃.val - 0x80)) :: ·)
        else none
      | _ => none
    else if 0xF0 ≤ b.val && b.val ≤ 0xF4 then
      match rest with
      | b₂ :: b₃ :: b₄ :: rest₄ =>
        let lo₂ := if b.val = 0xF0 then 0x90 else 0x80
        let hi₂ := if b.val = 0xF4 then 0x8F else 0xBF
        if lo₂ ≤ b₂.val && b₂.val ≤ hi₂ &&
           0x80 ≤ b₃.val && b₃.val ≤ 0xBF &&
           0x80 ≤ b₄.val && b₄.val ≤ 0xBF then
          (utf8Decode rest₄).map
            (Char.ofNat ((b.val - 0xF0) * 0x40000 +
              (b₂.val - 0x80) * 0x1000 + (b₃.val - 0x80) * 0x40 +
              (b₄.val - 0x80)) :: ·)
        else none
      | _ => none
    else none

/-- The UTF-8 byte-order mark. -/
def utf8Bom : List Nat := [0xEF, 0xBB, 0xBF]

/-- The `utf-8-sig` codec: strip a leading BOM, then UTF-8. -/
def utf8SigDecode (bs : List Byte) : Option (List Char) :=
  if (bs.take 3).map Fin.val = utf8Bom then utf8Decode (bs.drop 3)
  else utf8Decode bs

/-- CPython's `cp1256` (Windows Arabic) high half — fully defined. -/
def win1256Table : List Nat :=
  [0x20ac, 0x67e, 0x201a, 0x192, 0x201e, 0x2026, 0x2020, 0x2021,
   0x2c6, 0x2030, 0x679, 0x2039, 0x152, 0x686, 0x698, 0x688,
   0x6af, 0x2018, 0x2019, 0x201c, 0x201d, 0x2022, 0x2013, 0x2014,
   0x6a9, 0x2122, 0x691, 0x203a, 0x153, 0x200c, 0x200d, 0x6ba,
   0xa0, 0x60c, 0xa2, 0xa3, 0xa4, 0xa5, 0xa6, 0xa7,
   0xa8, 0xa9, 0x6be, 0xab, 0xac, 0xad, 0xae, 0xaf,
   0xb0, 0xb1, 0xb2, 0xb3, 0xb4, 0xb5, 0xb6, 0xb7,
   0xb8, 0xb9, 0x61b, 0xbb, 0xbc, 0xbd, 0xbe, 0x61f,
   0x6c1, 0x621, 0x622, 0x623, 0x624, 0x625, 0x626, 0x627,
   0x628, 0x629, 0x62a, 0x62b, 0x62c, 0x62d, 0x62e, 0x62f,
   0x630, 0x631, 0x632, 0x633, 0x634, 0x635, 0x636, 0xd7,
   0x637, 0x638, 0x639, 0x63a, 0x640, 0x641, 0x642, 0x643,
   0xe0, 0x644, 0xe2, 0x645, 0x646, 0x647, 0x648, 0xe7,
   0xe8, 0xe9, 0xea, 0xeb, 0x649, 0x64a, 0xee, 0xef,
   0x64b, 0x64c, 0x64d, 0x64e, 0xf4, 0x64f, 0x650, 0xf7,
   0x651, 0xf9, 0x652, 0xfb, 0xfc, 0x200e, 0x200f, 0x6d2]

/-- The `windows-1256` codec: every byte decodes. -/
def win1256Decode (bs : List Byte) : Option (List Char) :=
  some (bs.map (fun b =>
    if b.val < 0x80 then Char.ofNat b.val
    else Char.ofNat (win1256Table.getD (b.val - 0x80) 0)))

/-- The `iso-8859-1` (Latin-1) codec: every byte decodes to the code
point of the same number. -/
def latin1Decode (bs : List Byte) : Option (List Char) :=
  some (bs.map (fun b => Char.ofNat b.val))

/-- CPython's `cp1252` high half — five bytes are undefined. -/
def cp1252Table : List (Option Nat) :=
  [some 0x20ac, none, some 0x201a, some 0x192, some 0x201e, some 0x2026,
   some 0x2020, some 0x2021, some 0x2c6, some 0x2030, some 0x160,
   some 0x2039, some 0x152, none, some 0x17d, none, none, some 0x2018,
   some 0x2019, some 0x201c, some 0x201d, some 0x2022, some 0x2013,
   some 0x2014, some 0x2dc, some 0x2122, some 0x161, some 0x203a,
   some 0x153, none, some 0x17e, some 0x178, some 0xa0, some 0xa1,
   some 0xa2, some 0xa3, some 0xa4, some 0xa5, some 0xa6, some 0xa7,
   some 0xa8, some 0xa9, some 0xaa, some 0xab, some 0xac, some 0xad,
   some 0xae, some 0xaf, some 0xb0, some 0xb1, some 0xb2, some 0xb3,
   some 0xb4, some 0xb5, some 0xb6, some 0xb7, some 0xb8, some 0xb9,
   some 0xba, some 0xbb, some 0xbc, some 0xbd, some 0xbe, some 0xbf,
   some 0xc0, some 0xc1, some 0xc2, some 0xc3, some 0xc4, some 0xc5,
   some 0xc6, some 0xc7, some 0xc8, some 0xc9, some 0xca, some 0xcb,
   some 0xcc, some 0xcd, some 0xce, some 0xcf, some 0xd0, some 0xd1,
   some 0xd2, some 0xd3, some 0xd4, some 0xd5, some 0xd6, some 0xd7,
   some 0xd8, some 0xd9, some 0xda, some 0xdb, some 0xdc, some 0xdd,
   some 0xde, some 0xdf, some 0xe0, some 0xe1, some 0xe2, some 0xe3,
   some 0xe4, some 0xe5, some 0xe6, some 0xe7, some 0xe8, some 0xe9,
   some 0xea, some 0xeb, some 0xec, some 0xed, some 0xee, some 0xef,
   some 0xf0, some 0xf1, some 0xf2, some 0xf3, some 0xf4, some 0xf5,
   some 0xf6, some 0xf7, some 0xf8, some 0xf9, some 0xfa, some 0xfb,
   some 0xfc, some 0xfd, some 0xfe, some 0xff]

/-- The `cp1252` codec. -/
def cp1252Decode (bs : List Byte) : Option (List Char) :=
  bs.mapM (fun b =>
    if b.val < 0x80 then some (Char.ofNat b.val)
    else (cp1252Table.getD (b.val - 0x80) none).map Char.ofNat)

/-- The ordered encoding candidates of `load_file`. -/
inductive EncodingName where
  | utf8 | utf8sig | windows1256 | iso8859_1 | cp1252
deriving DecidableEq, Repr

/-- Decode with a named candidate. -/
def decodeWith : EncodingName → List Byte → Option (List Char)
  | .utf8, bs => utf8Decode bs
  | .utf8sig, bs => utf8SigDecode bs
  | .windows1256, bs => win1256Decode bs
  | .iso8859_1, bs => latin1Decode bs
  | .cp1252, bs => cp1252Decode bs

/-- `encodings = ['utf-8', 'utf-8-sig', 'windows-1256', 'iso-8859-1',
'cp1252']`. -/
def encodingCandidates : List EncodingName :=
  [.utf8, .utf8sig, .windows1256, .iso8859_1, .cp1252]

/-- The `for … else` loop: first successful decode wins. -/
def firstDecodeGo (bs : List Byte) :
    List EncodingName → Option (List Char × EncodingName)
  | [] => none
  | e :: es =>
    match decodeWith e bs with
    | some t => some (t, e)
    | none => firstDecodeGo bs es

/-- Try the ordered candidate list on the file bytes. -/
def firstDecode (bs : List Byte) : Option (List Char × EncodingName) :=
  firstDecodeGo bs encodingCandidates

/-- Outcome of `load_file`.  The surfaced message of each failure is
determined by the constructor (and, for a missing file, the path it
names), matching the three distinct `raise` sites. -/
inductive LoadResult where
  | notFound (path : List Char)
  | formatError
  | encodingError
  | ok (content : List Char) (enc : EncodingName) (items : List TItem)
deriving DecidableEq

/-- `PHPFileHandler.load_file`, over an abstract file system view: the
path text, whether it exists, its suffix, and its bytes. -/
def loadFile (path : List Char) (pathExists : Bool) (suffix : List Char)
    (content : List Byte) : LoadResult :=
  if pathExists = false then .notFound path
  else if lowerChars suffix ≠ '.' :: 'p' :: 'h' :: 'p' :: [] then
    .formatError
  else
    match firstDecode content with
    | some (t, e) => .ok t e (extractTranslations t)
    | none => .encodingError

/-- Python `str.split()`: whitespace-separated tokens, no empties.
Fuelled with `length + 1`, always sufficient. -/
def splitWsGo : Nat → List Char → List (List Char)
  | _, [] => []
  | 0, cs => [cs]
  | fuel+1, c :: cs =>
    if isSpaceChar c then splitWsGo fuel cs
    else
      (c :: cs).takeWhile (fun d => !isSpaceChar d) ::
        splitWsGo fuel ((c :: cs).dropWhile (fun d => !isSpaceChar d))

/-- `text.split()`. -/
def splitWs (cs : List Char) : List (List Char) :=
  splitWsGo (cs.length + 1) cs

/-- `set(text.lower().split())`. -/
def wordsOf (t : List Char) : Finset (List Char) :=
  (splitWs (lowerChars t)).toFinset

/-- `calculate_similarity` of `smart_text_grouping` (exact rational
arithmetic in place of Python floats; `mkRat i u` is the rational
`i / u` — `calcSimilarity_eq_jaccard` below proves the equality with
the division form). -/
def calcSimilarity (t1 t2 : List Char) : ℚ :=
  let w1 := wordsOf t1
  let w2 := wordsOf t2
  if w1 = ∅ ∨ w2 = ∅ then 0
  else
    let i := (w1 ∩ w2).card
    let u := (w1 ∪ w2).card
    if u > 0 then mkRat (i : Int) u else 0

/-- The inner scan of `smart_text_grouping`: walk the later indices,
skip claimed ones, join on similarity at least the threshold, and break
once the group has reached 10 members. -/
def innerScanGo (ts : List (List Char)) (θ : ℚ) (seed : List Char) :
    List Nat → List Nat → List (List Char) →
    List (List Char) × List Nat
  | [], processed, group => (group, processed)
  | j :: js, processed, group =>
    if j ∈ processed then innerScanGo ts θ seed js processed group
    else if calcSimilarity seed (ts.getD j []) ≥ θ then
      let g := group ++ [ts.getD j []]
      let p := j :: processed
      if g.length ≥ 10 then (g, p) else innerScanGo ts θ seed js p g
    else innerScanGo ts θ seed js processed group

/-- The outer loop of `smart_text_grouping`: each unclaimed index seeds
a group and scans the indices after it. -/
def outerGo (ts : List (List Char)) (θ : ℚ) :
    List Nat → List Nat → List (List (List Char))
  | [], _ => []
  | i :: is, processed =>
    if i ∈ processed then outerGo ts θ is processed
    else
      let seed := ts.getD i []
      let r := innerScanGo ts θ seed ((List.range ts.length).drop (i + 1))
        (i :: processed) [seed]
      r.1 :: outerGo ts θ is r.2

/-- `utils.smart_text_grouping`. -/
def smartTextGrouping (ts : List (List Char)) (θ : ℚ) :
    List (List (List Char)) :=
  outerGo ts θ (List.range ts.length) []

/-- Modelled from the spec: the Jaccard similarity
`|A∩B| / |A∪B|` over the lowercase whitespace-tokenized word sets, as
§4.5 words it (0 when the union is empty). -/
def jaccardSimilarity (t1 t2 : List Char) : ℚ :=
  let w1 := wordsOf t1
  let w2 := wordsOf t2
  if (w1 ∪ w2).card = 0 then 0
  else ((w1 ∩ w2).card : ℚ) / ((w1 ∪ w2).card : ℚ)

/-- Modelled from the spec (claim C8's wording): a later unclaimed text
joins the current group exactly when its similarity to the seed is at
least the threshold, and a group stops accepting members once it
reaches 10 texts. -/
def specScan (ts : List (List Char)) (θ : ℚ) (seed : List Char) :
    List Nat → List Nat → List (List Char) →
    List (List Char) × List Nat
  | [], processed, group => (group, processed)
  | j :: js, processed, group =>
    if group.length ≥ 10 then (group, processed)
    else if j ∉ processed ∧ calcSimilarity seed (ts.getD j []) ≥ θ then
      specScan ts θ seed js (j :: processed) (group ++ [ts.getD j []])
    else specScan ts θ seed js processed group

/-- The grouping algorithm as the claim describes it, with the
spec-side scan. -/
def specGrouping (ts : List (List Char)) (θ : ℚ) :
    List (List (List Char)) :=
  go (List.range ts.length) []
where
  go : List Nat → List Nat → List (List (List Char))
  | [], _ => []
  | i :: is, processed =>
    if i ∈ processed then go is processed
    else
      let seed := ts.getD i []
      let r := specScan ts θ seed ((List.range ts.length).drop (i + 1))
        (i :: processed) [seed]
      r.1 :: go is r.2

/-! ## Helper lemmas -/

theorem splitLines_ne_nil (s : List Char) : splitLines s ≠ [] := by
  induction s with
  | nil => simp [splitLines]
  | cons c cs ih =>
    unfold splitLines
    cases h : splitLines cs with
    | nil => simp
    | cons l ls => by_cases hc : c = '\n' <;> simp [hc]

theorem joinLines_splitLines (s : List Char) :
    joinLines (splitLines s) = s := by
  induction s with
  | nil => rfl
  | cons c cs ih =>
    unfold splitLines
    cases h : splitLines cs with
    | nil => exact absurd h (splitLines_ne_nil cs)
    | cons l ls =>
      rw [h] at ih
      by_cases hc : c = '\n'
      · subst hc
        simp only [if_pos rfl]
        show [] ++ '\n' :: joinLines (l :: ls) = '\n' :: cs
        rw [List.nil_append, ih]
      · simp only [if_neg hc]
        cases ls with
        | nil =>
          show c :: l = c :: cs
          simpa [joinLines] using congrArg (c :: ·) ih
        | cons l₂ ls₂ =>
          show (c :: l) ++ '\n' :: joinLines (l₂ :: ls₂) = c :: cs
          rw [List.cons_append]
          exact congrArg (c :: ·) ih

theorem splitLines_cons_eq (c : Char) (cs l₁ : List Char)
    (ls : List (List Char)) (h : splitLines cs = l₁ :: ls) :
    splitLines (c :: cs) =
      if c = '\n' then [] :: l₁ :: ls else (c :: l₁) :: ls := by
  unfold splitLines
  rw [h]

theorem splitLines_head_decomp (cs : List Char) :
    ∃ l₁ ls, splitLines cs = l₁ :: ls := by
  cases h : splitLines cs with
  | nil => exact absurd h (splitLines_ne_nil cs)
  | cons a b => exact ⟨a, b, rfl⟩

theorem splitLines_no_newline (s : List Char) :
    ∀ l ∈ splitLines s, '\n' ∉ l := by
  induction s with
  | nil => intro l hl; simp [splitLines] at hl; simp [hl]
  | cons c cs ih =>
    intro l hl
    obtain ⟨l₁, ls, h⟩ := splitLines_head_decomp cs
    rw [splitLines_cons_eq c cs l₁ ls h] at hl
    rw [h] at ih
    by_cases hc : c = '\n'
    · simp only [hc, if_pos rfl] at hl
      rcases List.mem_cons.mp hl with hl | hl
      · simp [hl]
      · exact ih l hl
    · simp only [if_neg hc] at hl
      rcases List.mem_cons.mp hl with hl | hl
      · subst hl
        intro hmem
        rcases List.mem_cons.mp hmem with h1 | h1
        · exact hc h1.symm
        · exact ih l₁ (List.mem_cons_self _ _) h1
      · exact ih l (List.mem_cons_of_mem _ hl)

theorem splitLines_single (l : List Char) (h : '\n' ∉ l) :
    splitLines l = [l] := by
  induction l with
  | nil => rfl
  | cons c cs ih =>
    have hc : c ≠ '\n' := fun hh => h (hh ▸ List.mem_cons_self c cs)
    have hcs : '\n' ∉ cs := fun hh => h (List.mem_cons_of_mem c hh)
    unfold splitLines
    rw [ih hcs]
    simp [hc]

theorem splitLines_append_newline (l t : List Char) (h : '\n' ∉ l) :
    splitLines (l ++ '\n' :: t) = l :: splitLines t := by
  induction l with
  | nil =>
    obtain ⟨l₁, ls, ht⟩ := splitLines_head_decomp t
    show splitLines ('\n' :: t) = [] :: splitLines t
    rw [splitLines_cons_eq '\n' t l₁ ls ht, ht]
    simp
  | cons c cs ih =>
    have hc : c ≠ '\n' := fun hh => h (hh ▸ List.mem_cons_self c cs)
    have hcs : '\n' ∉ cs := fun hh => h (List.mem_cons_of_mem c hh)
    show splitLines (c :: (cs ++ '\n' :: t)) = (c :: cs) :: splitLines t
    rw [splitLines_cons_eq c _ cs (splitLines t) (ih hcs)]
    simp [hc]

theorem splitLines_joinLines (ps : List (List Char)) (hne : ps ≠ [])
    (hn : ∀ l ∈ ps, '\n' ∉ l) : splitLines (joinLines ps) = ps := by
  induction ps with
  | nil => exact absurd rfl hne
  | cons l ps' ih =>
    cases ps' with
    | nil =>
      show splitLines (joinLines [l]) = [l]
      exact splitLines_single l (hn l (List.mem_cons_self _ _))
    | cons l₂ ps₂ =>
      show splitLines (l ++ '\n' :: joinLines (l₂ :: ps₂)) = l :: l₂ :: ps₂
      rw [splitLines_append_newline _ _ (hn l (List.mem_cons_self _ _))]
      rw [ih (by simp) (fun x hx => hn x (List.mem_cons_of_mem _ hx))]

theorem modifyNth_length (f : α → α) (n : Nat) (l : List α) :
    (modifyNth f n l).length = l.length := by
  induction l generalizing n with
  | nil => cases n <;> rfl
  | cons x xs ih => cases n with
    | zero => rfl
    | succ m => simp [modifyNth, ih]

theorem get?_modifyNth_ne (f : α → α) (n j : Nat) (l : List α)
    (h : j ≠ n) : (modifyNth f n l).get? j = l.get? j := by
  induction l generalizing n j with
  | nil => cases n <;> rfl
  | cons x xs ih =>
    cases n with
    | zero =>
      cases j with
      | zero => exact absurd rfl h
      | succ i => rfl
    | succ m =>
      cases j with
      | zero => rfl
      | succ i => simpa [modifyNth] using ih m i (fun hh => h (by simp [hh]))

theorem get?_modifyNth_eq (f : α → α) (n : Nat) (l : List α) :
    (modifyNth f n l).get? n = (l.get? n).map f := by
  induction l generalizing n with
  | nil => cases n <;> rfl
  | cons x xs ih => cases n with
    | zero => rfl
    | succ m => simpa [modifyNth] using ih m

theorem setItemFields_frozen (it : TItem) (text ttype : List Char) :
    (setItemFields it text ttype).line_number = it.line_number ∧
    (setItemFields it text ttype).key = it.key ∧
    (setItemFields it text ttype).original_value = it.original_value ∧
    (setItemFields it text ttype).original_line = it.original_line ∧
    (setItemFields it text ttype).needs_translation =
      it.needs_translation ∧
    (setItemFields it text ttype).pattern_used = it.pattern_used := by
  simp [setItemFields]

/-! ## Claim C9 — translation cache -/

/-- C9: for every cache state and texts `s` and `t`, after `set(s, v)`
a `get(t)` returns `v` whenever the normalization (lowercase + trim) of
`t` equals the normalization of `s`; and `get` of any text whose
normalized form is not a key of the cache returns an absent result
(`none`) and never raises (the model is a total function). -/
theorem c9_cache_get_set :
    ∀ (cache : Cache) (s t v : List Char),
      (cleanTextForCache t = cleanTextForCache s →
        cacheGet (cacheSet cache s v) t = some v) ∧
      (cleanTextForCache t ∉ cacheKeys cache →
        cacheGet cache t = none) := by
  intro cache s t v
  constructor
  · intro h
    simp [cacheGet, cacheSet, List.find?, h]
  · intro h
    have : List.find? (fun p => p.1 = cleanTextForCache t) cache = none := by
      rw [List.find?_eq_none]
      intro x hx
      simp only [decide_eq_true_eq]
      intro hx1
      exact h (hx1 ▸ List.mem_map_of_mem Prod.fst hx)
    simp [cacheGet, this]

/-- Witness for C9 at a concrete cache, key and probe. -/
theorem c9_cache_get_set_witness :
    cacheGet (cacheSet [] (' ' :: 'H' :: 'i' :: []) ('x' :: []))
        ('h' :: 'i' :: []) = some ('x' :: []) ∧
    cacheGet ([] : Cache) ('z' :: []) = none :=
  ⟨(c9_cache_get_set [] (' ' :: 'H' :: 'i' :: []) ('h' :: 'i' :: [])
      ('x' :: [])).1 (by decide),
   (c9_cache_get_set [] [] ('z' :: []) []).2 (by decide)⟩

/-! ## Claim C10 — update_translation bounds -/

/-- C10: `update_translation(index, text, tag)` returns `False` exactly
when the index is out of range (`index < 0` or `index ≥ len`), leaving
the whole state (items and `modified` flag) unchanged; in range it
returns `True` and rewrites the addressed item to `setItemFields`,
which touches only `translated_value`, `is_translated` and
`translation_type`, leaving every other item untouched. -/
theorem c10_update_translation_spec :
    ∀ (st : HandlerState) (index : Int) (text ttype : List Char),
      ((updateTranslation st index text ttype).2 = false ↔
        index < 0 ∨ (st.translations.length : Int) ≤ index) ∧
      ((updateTranslation st index text ttype).2 = false →
        (updateTranslation st index text ttype).1 = st) ∧
      ((updateTranslation st index text ttype).2 = true →
        (updateTranslation st index text ttype).1.translations.length =
          st.translations.length ∧
        (∀ j, j ≠ index.toNat →
          (updateTranslation st index text ttype).1.translations.get? j =
            st.translations.get? j) ∧
        (updateTranslation st index text ttype).1.translations.get?
            index.toNat =
          (st.translations.get? index.toNat).map
            (fun it => setItemFields it text ttype)) ∧
      (∀ it : TItem,
        (setItemFields it text ttype).line_number = it.line_number ∧
        (setItemFields it text ttype).key = it.key ∧
        (setItemFields it text ttype).original_value =
          it.original_value ∧
        (setItemFields it text ttype).needs_translation =
          it.needs_translation ∧
        (setItemFields it text ttype).pattern_used = it.pattern_used) := by
  intro st index text ttype
  by_cases h : 0 ≤ index ∧ index < (st.translations.length : Int)
  · refine ⟨?_, ?_, ?_, ?_⟩
    · simp only [updateTranslation, if_pos h]
      constructor
      · intro hh; exact absurd hh (by simp)
      · intro hh; omega
    · simp [updateTranslation, if_pos h]
    · intro _
      simp only [updateTranslation, if_pos h]
      exact ⟨modifyNth_length _ _ _,
        fun j hj => get?_modifyNth_ne _ _ _ _ hj,
        get?_modifyNth_eq _ _ _⟩
    · intro it
      have hf := setItemFields_frozen it text ttype
      exact ⟨hf.1, hf.2.1, hf.2.2.1, hf.2.2.2.2.1, hf.2.2.2.2.2⟩
  · refine ⟨?_, ?_, ?_, ?_⟩
    · simp only [updateTranslation, if_neg h]
      constructor
      · intro _; omega
      · intro _; trivial
    · simp [updateTranslation, if_neg h]
    · intro hh
      simp only [updateTranslation, if_neg h] at hh
      exact absurd hh (by simp)
    · intro it
      have hf := setItemFields_frozen it text ttype
      exact ⟨hf.1, hf.2.1, hf.2.2.1, hf.2.2.2.2.1, hf.2.2.2.2.2⟩

/-- Witness for C10 on a one-item state at an out-of-range index. -/
theorem c10_update_translation_witness :
    (updateTranslation ⟨[mkItem 1 ['k'] ['v'] ['v'] false 0], false⟩
        5 ['t'] ['m']).2 = false ∧
    (updateTranslation ⟨[mkItem 1 ['k'] ['v'] ['v'] false 0], false⟩
        5 ['t'] ['m']).1 = ⟨[mkItem 1 ['k'] ['v'] ['v'] false 0], false⟩ := by
  have h := c10_update_translation_spec
    ⟨[mkItem 1 ['k'] ['v'] ['v'] false 0], false⟩ 5 ['t'] ['m']
  have h2 : (updateTranslation
      ⟨[mkItem 1 ['k'] ['v'] ['v'] false 0], false⟩ 5 ['t'] ['m']).2 =
      false := h.1.mpr (by decide)
  exact ⟨h2, h.2.1 h2⟩

theorem ratio_gt_half_iff (a t : Nat) (htz : t ≠ 0) :
    ((a : ℚ) / (t : ℚ) > 1 / 2) ↔ t < 2 * a := by
  have ht : (0 : ℚ) < t := by
    exact_mod_cast Nat.pos_of_ne_zero htz
  rw [gt_iff_lt, lt_div_iff ht]
  constructor
  · intro hh
    have : (t : ℚ) < 2 * a := by linarith
    exact_mod_cast this
  · intro hh
    have : (t : ℚ) < 2 * a := by exact_mod_cast hh
    linarith

/-- The integer comparison inside `hasArabicContent` is exactly the
source's real-number ratio test `arabic_chars / total_chars > 0.5`. -/
theorem hasArabicContent_ratio (text : List Char) :
    hasArabicContent text = true ↔
      (text ≠ [] ∧
       ((((text.filter (fun c => isWordChar c || isSpaceChar c)).filter
           (fun c => !isDigitChar c)).filter
           (fun c => isLatinLetter c || isArabicChar c)).length ≠ 0 ∧
        ((((text.filter (fun c => isWordChar c || isSpaceChar c)).filter
            (fun c => !isDigitChar c)).filter
            (fun c => isArabicChar c)).length : ℚ) /
          ((((text.filter (fun c => isWordChar c || isSpaceChar c)).filter
            (fun c => !isDigitChar c)).filter
            (fun c => isLatinLetter c || isArabicChar c)).length : ℚ) >
          1 / 2)) := by
  unfold hasArabicContent
  by_cases h0 : text = []
  · rw [if_pos h0]
    constructor
    · intro hh; exact absurd hh (by simp)
    · rintro ⟨hne, -⟩; exact absurd h0 hne
  · rw [if_neg h0]
    dsimp only
    simp only [h0, ne_eq, not_false_eq_true, true_and]
    by_cases hz :
        (((text.filter (fun c => isWordChar c || isSpaceChar c)).filter
          (fun c => !isDigitChar c)).filter
          (fun c => isLatinLetter c || isArabicChar c)).length = 0
    · rw [if_pos hz]
      constructor
      · intro hh; exact absurd hh (by simp)
      · rintro ⟨hne, -⟩; exact absurd hz hne
    · rw [if_neg hz, decide_eq_true_eq, ratio_gt_half_iff _ _ hz]
      constructor
      · intro hh; exact ⟨hz, hh⟩
      · rintro ⟨-, hh⟩; exact hh

/-! ## Extraction structure lemmas -/

theorem itemFromPair_fields (ln : Int) (line : List Char) (b : Bool)
    (pi : Nat) (kv : List Char × List Char) (it : TItem)
    (h : itemFromPair ln line b pi kv = some it) :
    it.translated_value = it.original_value ∧
    it.is_translated = hasArabicContent it.translated_value ∧
    it.line_number = ln := by
  simp only [itemFromPair] at h
  split at h
  · rw [Option.some.injEq] at h
    subst h
    exact ⟨rfl, rfl, rfl⟩
  · exact absurd h (by simp)

theorem mem_itemsOfLine_pair (ln : Int) (line : List Char) (b : Bool)
    (it : TItem) (h : it ∈ itemsOfLine ln line b) :
    ∃ pi kv, itemFromPair ln line b pi kv = some it := by
  simp only [itemsOfLine] at h
  split at h
  · exact absurd h (by simp)
  · split at h
    · exact absurd h (by simp)
    · rcases List.mem_append.mp h with h' | h'
      · rcases List.mem_append.mp h' with h'' | h''
        · rcases List.mem_append.mp h'' with h₃ | h₃
          · obtain ⟨kv, _, hkv⟩ := List.mem_filterMap.mp h₃
            exact ⟨0, kv, hkv⟩
          · obtain ⟨kv, _, hkv⟩ := List.mem_filterMap.mp h₃
            exact ⟨1, kv, hkv⟩
        · obtain ⟨kv, _, hkv⟩ := List.mem_filterMap.mp h''
          exact ⟨2, kv, hkv⟩
      · obtain ⟨kv, _, hkv⟩ := List.mem_filterMap.mp h'
        exact ⟨3, kv, hkv⟩

theorem mem_itemsOfLine_short (ln : Int) (line : List Char) (it : TItem)
    (h : it ∈ itemsOfLine ln line true) : line.length ≤ 1000 := by
  by_cases hlen : line.length ≤ 1000
  · exact hlen
  · exfalso
    revert h
    simp only [itemsOfLine]
    by_cases hskip : lineSkipped line = true
    · simp [hskip]
    · rw [if_neg (by simpa using hskip),
        if_pos (by simp only [Bool.true_and, decide_eq_true_eq]; omega)]
      simp

theorem mem_processLinesGo_decomp (b : Bool) :
    ∀ (n : Nat) (ls : List (List Char)) (it : TItem),
      it ∈ processLinesGo b n ls →
      ∃ k, ∃ hk : k < ls.length,
        it ∈ itemsOfLine (((n + k : Nat) : Int) + 1) (ls.get ⟨k, hk⟩) b := by
  intro n ls
  induction ls generalizing n with
  | nil => intro it h; exact absurd h (by simp [processLinesGo])
  | cons l ls ih =>
    intro it h
    simp only [processLinesGo] at h
    rcases List.mem_append.mp h with h' | h'
    · exact ⟨0, by simp, by simpa using h'⟩
    · obtain ⟨k, hk, hmem⟩ := ih (n + 1) it h'
      refine ⟨k + 1, by simpa using Nat.succ_lt_succ hk, ?_⟩
      have : ((n + 1) + k : Nat) = (n + (k + 1) : Nat) := by omega
      rw [this] at hmem
      simpa using hmem

theorem mem_chunkedGo_decomp :
    ∀ (fuel start : Nat) (ls : List (List Char)) (it : TItem),
      it ∈ chunkedGo fuel start ls →
      ∃ k, ∃ hk : k < ls.length,
        it ∈ itemsOfLine (((start + k : Nat) : Int) + 1)
          (ls.get ⟨k, hk⟩) true := by
  intro fuel
  induction fuel with
  | zero =>
    intro start ls it h
    cases ls with
    | nil => exact absurd h (by simp [chunkedGo])
    | cons l ls' => exact absurd h (by simp [chunkedGo])
  | succ f ih =>
    intro start ls it h
    cases ls with
    | nil => exact absurd h (by simp [chunkedGo])
    | cons l ls' =>
      simp only [chunkedGo] at h
      rcases List.mem_append.mp h with h' | h'
      · obtain ⟨k, hk, hmem⟩ :=
          mem_processLinesGo_decomp true start ((l :: ls').take 10000) it h'
        have hk' : k < (l :: ls').length :=
          lt_of_lt_of_le hk (by simpa using List.length_take_le 10000 (l :: ls'))
        refine ⟨k, hk', ?_⟩
        have : ((l :: ls').take 10000).get ⟨k, hk⟩ =
            (l :: ls').get ⟨k, hk'⟩ := by
          simp only [List.get_eq_getElem, List.getElem_take]
        rwa [this] at hmem
      · obtain ⟨k, hk, hmem⟩ := ih (start + 10000) ((l :: ls').drop 10000) it h'
        have hk' : 10000 + k < (l :: ls').length := by
          have := List.length_drop 10000 (l :: ls')
          omega
        refine ⟨10000 + k, hk', ?_⟩
        have hget : ((l :: ls').drop 10000).get ⟨k, hk⟩ =
            (l :: ls').get ⟨10000 + k, hk'⟩ := by
          simp only [List.get_eq_getElem, List.getElem_drop]
        have harith : ((start + 10000) + k : Nat) = (start + (10000 + k) : Nat) := by
          omega
        rw [harith, hget] at hmem
        exact hmem

theorem mem_dedupGo (it : TItem) :
    ∀ (seen : List (List Char × List Char)) (items : List TItem),
      it ∈ dedupGo seen items → it ∈ items := by
  intro seen items
  induction items generalizing seen with
  | nil => intro h; exact absurd h (by simp [dedupGo])
  | cons x xs ih =>
    intro h
    simp only [dedupGo] at h
    split at h
    · exact List.mem_cons_of_mem _ (ih _ h)
    · rcases List.mem_cons.mp h with h' | h'
      · exact h' ▸ List.mem_cons_self _ _
      · exact List.mem_cons_of_mem _ (ih _ h')

theorem mem_extractTranslations_pair (source : List Char) (it : TItem)
    (h : it ∈ extractTranslations source) :
    ∃ ln line b pi kv, itemFromPair ln line b pi kv = some it := by
  simp only [extractTranslations] at h
  split at h
  · simp only [extractTranslationsOptimized, deduplicateTranslations] at h
    have h' := mem_dedupGo it [] _ h
    simp only [rawExtractOptimized] at h'
    obtain ⟨k, hk, hmem⟩ := mem_chunkedGo_decomp _ 0 _ it h'
    obtain ⟨pi, kv, hkv⟩ := mem_itemsOfLine_pair _ _ _ it hmem
    exact ⟨_, _, _, _, _, hkv⟩
  · simp only [extractStandard] at h
    obtain ⟨k, hk, hmem⟩ := mem_processLinesGo_decomp false 0 _ it h
    obtain ⟨pi, kv, hkv⟩ := mem_itemsOfLine_pair _ _ _ it hmem
    exact ⟨_, _, _, _, _, hkv⟩

/-- Every freshly extracted item starts with `translated_value =
original_value` and a consistent `is_translated` flag. -/
theorem extractTranslations_fresh (source : List Char) (it : TItem)
    (h : it ∈ extractTranslations source) :
    it.translated_value = it.original_value ∧
    it.is_translated = hasArabicContent it.translated_value := by
  obtain ⟨ln, line, b, pi, kv, hkv⟩ := mem_extractTranslations_pair source it h
  have := itemFromPair_fields ln line b pi kv it hkv
  exact ⟨this.1, this.2.1⟩

/-! ## Claim C5 — the needs_translation classifier -/

/-- C5: `needs_translation` rejects `"$userName"`, `"123-456"` and
`"مرحبا"`, accepts `"Submit Order"`; and for every text passing the
whole exclusion cascade (length, digits, the ten programming patterns,
HTML tag, Arabic-majority, symbol-ratio filter), the result is `true`
iff the stripped text contains a Latin letter and at least one
`[a-zA-Z]+` word token. -/
theorem c5_needs_translation :
    needsTranslation "$userName".toList = false ∧
    needsTranslation "123-456".toList = false ∧
    needsTranslation "مرحبا".toList = false ∧
    needsTranslation "Submit Order".toList = true ∧
    (∀ text : List Char,
      text ≠ [] →
      ¬ (stripChars text).length < 2 →
      pyIsDigit (stripChars text) = false →
      matchesProgrammingPattern (stripChars text) = false →
      matchHtmlTag (stripChars text) = false →
      hasArabicContent (stripChars text) = false →
      ¬ (countSymbols (stripChars text) > countLatinWords (stripChars text) ∧
          countLatinWords (stripChars text) < 3) →
      (needsTranslation text = true ↔
        ((∃ c ∈ stripChars text, isLatinLetter c = true) ∧
          0 < countLatinWords (stripChars text)))) := by
  refine ⟨by decide, by decide, by decide, by decide, ?_⟩
  intro text h0 h1 h2 h3 h4 h5 h6
  unfold needsTranslation
  rw [if_neg h0]
  dsimp only
  rw [if_neg h1, if_neg (by simp [h2]), if_neg (by simp [h3]),
    if_neg (by simp [h4]), if_neg (by simp [h5]),
    if_neg (by simpa [Bool.and_eq_true, decide_eq_true_eq] using h6)]
  simp [List.any_eq_true, Bool.and_eq_true, decide_eq_true_eq]

/-- Witness for C5's universally quantified clause at
`"Submit Order"`. -/
theorem c5_needs_translation_witness :
    needsTranslation "Submit Order".toList = true ↔
      ((∃ c ∈ stripChars "Submit Order".toList, isLatinLetter c = true) ∧
        0 < countLatinWords (stripChars "Submit Order".toList)) :=
  c5_needs_translation.2.2.2.2 "Submit Order".toList (by decide) (by decide)
    (by decide) (by decide) (by decide) (by decide) (by decide)

/-! ## Claim C6 — update invariants -/

theorem updateReach_refl (a : TItem) : updateReach a a :=
  ⟨⟨rfl, rfl, rfl, rfl, rfl⟩, Or.inr ⟨rfl, rfl⟩⟩

theorem updateReach_set (a : TItem) (text ttype : List Char) :
    updateReach (setItemFields a text ttype) a :=
  ⟨⟨rfl, rfl, rfl, rfl, rfl⟩, Or.inl rfl⟩

theorem updateReach_trans {a b c : TItem} (h₁ : updateReach a b)
    (h₂ : updateReach b c) : updateReach a c := by
  obtain ⟨f₁, i₁⟩ := h₁
  obtain ⟨f₂, i₂⟩ := h₂
  refine ⟨⟨f₁.1.trans f₂.1, f₁.2.1.trans f₂.2.1,
    f₁.2.2.1.trans f₂.2.2.1, f₁.2.2.2.1.trans f₂.2.2.2.1,
    f₁.2.2.2.2.trans f₂.2.2.2.2⟩, ?_⟩
  rcases i₁ with i₁ | ⟨e₁, e₂⟩
  · exact Or.inl i₁
  · rcases i₂ with i₂ | ⟨e₃, e₄⟩
    · exact Or.inl (by rw [e₂, i₂, ← e₁])
    · exact Or.inr ⟨e₁.trans e₃, e₂.trans e₄⟩

theorem updateTranslation_get?_reach (st : HandlerState) (idx : Int)
    (text ttype : List Char) (j : Nat) (it : TItem)
    (h : (updateTranslation st idx text ttype).1.translations.get? j =
      some it) :
    ∃ it₀, st.translations.get? j = some it₀ ∧ updateReach it it₀ := by
  unfold updateTranslation at h
  split at h
  · simp only at h
    by_cases hj : j = idx.toNat
    · subst hj
      rw [get?_modifyNth_eq] at h
      obtain ⟨it₀, h₀, hf⟩ := Option.map_eq_some'.mp h
      exact ⟨it₀, h₀, hf ▸ updateReach_set it₀ text ttype⟩
    · rw [get?_modifyNth_ne _ _ _ _ hj] at h
      exact ⟨it, h, updateReach_refl it⟩
  · exact ⟨it, h, updateReach_refl it⟩

theorem applyUpdates_get?_reach
    (ops : List (Int × List Char × List Char)) :
    ∀ (st : HandlerState) (j : Nat) (it : TItem),
      (applyUpdates st ops).translations.get? j = some it →
      ∃ it₀, st.translations.get? j = some it₀ ∧ updateReach it it₀ := by
  induction ops with
  | nil => intro st j it h; exact ⟨it, h, updateReach_refl it⟩
  | cons op ops ih =>
    intro st j it h
    have hstep : applyUpdates st (op :: ops) =
        applyUpdates (updateTranslation st op.1 op.2.1 op.2.2).1 ops := rfl
    rw [hstep] at h
    obtain ⟨it₁, h₁, r₁⟩ := ih _ j it h
    obtain ⟨it₀, h₀, r₀⟩ :=
      updateTranslation_get?_reach st op.1 op.2.1 op.2.2 j it₁ h₁
    exact ⟨it₀, h₀, updateReach_trans r₁ r₀⟩

/-- C6: in every state reachable from extraction by a sequence of
`update_translation` calls, each item's `is_translated` flag equals the
majority-script test on its current `translated_value`, and the
`original_value`, `key`, `line_number`, `needs_translation` and
`pattern_used` fields are those assigned at extraction. -/
theorem c6_update_invariant :
    ∀ (source : List Char) (ops : List (Int × List Char × List Char))
      (j : Nat) (it it₀ : TItem),
      (applyUpdates ⟨extractTranslations source, false⟩ ops).translations.get?
          j = some it →
      (extractTranslations source).get? j = some it₀ →
      (it.is_translated = hasArabicContent it.translated_value ∧
       it.original_value = it₀.original_value ∧ it.key = it₀.key ∧
       it.line_number = it₀.line_number ∧
       it.needs_translation = it₀.needs_translation ∧
       it.pattern_used = it₀.pattern_used) := by
  intro source ops j it it₀ h h₀
  obtain ⟨it₁, h₁, r⟩ := applyUpdates_get?_reach ops _ j it h
  have hss : some it₁ = some it₀ := h₁.symm.trans h₀
  have hsame : it₁ = it₀ := Option.some_inj.mp hss
  subst hsame
  obtain ⟨fr, inv⟩ := r
  have hfresh := extractTranslations_fresh source it₁ (List.get?_mem h₀)
  rcases inv with hi | ⟨e₁, e₂⟩
  · exact ⟨hi, fr.1, fr.2.1, fr.2.2.1, fr.2.2.2.1, fr.2.2.2.2⟩
  · refine ⟨?_, fr.1, fr.2.1, fr.2.2.1, fr.2.2.2.1, fr.2.2.2.2⟩
    rw [e₂, hfresh.2, e₁]

/-- Witness for C6: one extraction followed by one in-range update. -/
theorem c6_update_invariant_witness :
    (applyUpdates ⟨extractTranslations
        "'greeting' => 'hello world',".toList, false⟩
      [((0 : Int), "مرحبا".toList, "manual".toList)]).translations.get? 0 =
      some c6SampleUpdated ∧
    (extractTranslations "'greeting' => 'hello world',".toList).get? 0 =
      some c6SampleExtracted ∧
    (c6SampleUpdated.is_translated =
       hasArabicContent c6SampleUpdated.translated_value ∧
     c6SampleUpdated.original_value = c6SampleExtracted.original_value ∧
     c6SampleUpdated.key = c6SampleExtracted.key ∧
     c6SampleUpdated.line_number = c6SampleExtracted.line_number ∧
     c6SampleUpdated.needs_translation =
       c6SampleExtracted.needs_translation ∧
     c6SampleUpdated.pattern_used = c6SampleExtracted.pattern_used) :=
  ⟨by decide, by decide,
   c6_update_invariant "'greeting' => 'hello world',".toList
     [((0 : Int), "مرحبا".toList, "manual".toList)] 0
     c6SampleUpdated c6SampleExtracted (by decide) (by decide)⟩

/-! ## Rebuild lemmas and claims C1, C3 -/

theorem mem_insertDesc (a x : TItem) :
    ∀ l, a ∈ insertDesc x l ↔ a = x ∨ a ∈ l := by
  intro l
  induction l with
  | nil => simp [insertDesc]
  | cons y ys ih =>
    simp only [insertDesc]
    split
    · rw [List.mem_cons, ih, List.mem_cons]
      tauto
    · simp only [List.mem_cons]

theorem mem_sortByLineDesc (a : TItem) :
    ∀ items, a ∈ sortByLineDesc items ↔ a ∈ items := by
  intro items
  induction items with
  | nil => simp [sortByLineDesc]
  | cons x xs ih =>
    simp only [sortByLineDesc]
    rw [mem_insertDesc, ih, List.mem_cons]

theorem rewriteGuard_unchanged (it : TItem)
    (h : it.translated_value = it.original_value) :
    rewriteGuard it = false := by
  simp [rewriteGuard, h]

theorem applyItemToLines_unchanged (ls : List (List Char)) (it : TItem)
    (h : it.translated_value = it.original_value) :
    applyItemToLines ls it = ls := by
  unfold applyItemToLines
  rw [rewriteGuard_unchanged it h]
  simp

theorem foldl_applyItemToLines_unchanged :
    ∀ (items : List TItem) (ls : List (List Char)),
      (∀ it ∈ items, it.translated_value = it.original_value) →
      items.foldl applyItemToLines ls = ls := by
  intro items
  induction items with
  | nil => intro ls _; rfl
  | cons x xs ih =>
    intro ls h
    show xs.foldl applyItemToLines (applyItemToLines ls x) = ls
    rw [applyItemToLines_unchanged ls x (h x (List.mem_cons_self _ _))]
    exact ih ls (fun it hit => h it (List.mem_cons_of_mem _ hit))

/-- `rebuild` leaves the source untouched when no item's value
changed. -/
theorem buildNewContent_unchanged (source : List Char)
    (items : List TItem)
    (h : ∀ it ∈ items, it.translated_value = it.original_value) :
    buildNewContent source items = source := by
  unfold buildNewContent
  rw [foldl_applyItemToLines_unchanged _ _
    (fun it hit => h it ((mem_sortByLineDesc it items).mp hit))]
  exact joinLines_splitLines source

/-- C1: rebuilding a source from its own freshly extracted items (all
`translated_value`s still equal to their `original_value`s) returns the
source byte-identically. -/
theorem c1_round_trip :
    ∀ source : List Char,
      buildNewContent source (extractTranslations source) = source :=
  fun source =>
    buildNewContent_unchanged source _
      (fun it h => (extractTranslations_fresh source it h).1)

/-- C3 counterexample: with the single item `c3Item` (key = original
value `"hi"`, translation `"عالم"`), one rebuild rewrites the value,
and a second rebuild additionally rewrites the key through the bare
word-boundary fallback pattern, so `rebuild∘rebuild ≠ rebuild`. -/
theorem c3_idempotence_counterexample :
    buildNewContent
        (buildNewContent ('\'' :: 'h' :: 'i' :: '\'' :: ' ' :: '=' ::
          '>' :: ' ' :: '\'' :: 'h' :: 'i' :: '\'' :: []) [c3Item])
        [c3Item] ≠
      buildNewContent ('\'' :: 'h' :: 'i' :: '\'' :: ' ' :: '=' ::
        '>' :: ' ' :: '\'' :: 'h' :: 'i' :: '\'' :: []) [c3Item] := by
  decide

/-- C3 amended: `rebuild` is idempotent when no item has changed
(every `translated_value` equal to its `original_value`), which is the
spec's own contract wording; unconditional idempotence fails
(`c3_idempotence_counterexample`). -/
theorem c3_idempotent_when_unchanged :
    ∀ (source : List Char) (items : List TItem),
      (∀ it ∈ items, it.translated_value = it.original_value) →
      buildNewContent (buildNewContent source items) items =
        buildNewContent source items := by
  intro s items h
  rw [buildNewContent_unchanged _ _ h, buildNewContent_unchanged _ _ h]

/-- Witness for the amended C3 at a concrete unchanged item. -/
theorem c3_idempotent_witness :
    buildNewContent (buildNewContent
        ('\'' :: 'k' :: '\'' :: []) [mkItem 1 ['k'] ['v'] ['v'] false 0])
      [mkItem 1 ['k'] ['v'] ['v'] false 0] =
    buildNewContent ('\'' :: 'k' :: '\'' :: [])
      [mkItem 1 ['k'] ['v'] ['v'] false 0] :=
  c3_idempotent_when_unchanged ('\'' :: 'k' :: '\'' :: [])
    [mkItem 1 ['k'] ['v'] ['v'] false 0] (by decide)

/-! ## Character-provenance lemmas for the rewrite engine (claim C2) -/

theorem mem_of_startsWith (pat s : List Char) (h : startsWith pat s = true) :
    ∀ c ∈ pat, c ∈ s := by
  induction pat generalizing s with
  | nil => intro c hc; exact absurd hc (by simp)
  | cons p ps ih =>
    cases s with
    | nil => exact absurd h (by simp [startsWith])
    | cons a as =>
      simp only [startsWith, Bool.and_eq_true, decide_eq_true_eq] at h
      intro c hc
      rcases List.mem_cons.mp hc with hc | hc
      · exact hc ▸ h.1 ▸ List.mem_cons_self _ _
      · exact List.mem_cons_of_mem _ (ih as h.2 c hc)

theorem mem_of_mem_takeWhile (p : Char → Bool) (l : List Char) (c : Char)
    (h : c ∈ l.takeWhile p) : c ∈ l :=
  (List.takeWhile_sublist p).mem h

theorem expectLit_some (x : Char) (cs r : List Char)
    (h : expectLit x cs = some r) :
    x ∈ cs ∧ ∀ c ∈ r, c ∈ cs := by
  cases cs with
  | nil => exact absurd h (by simp [expectLit])
  | cons a as =>
    simp only [expectLit] at h
    split at h
    · rename_i hx
      have hr : r = as := (Option.some_inj.mp h).symm
      subst hr
      exact ⟨hx ▸ List.mem_cons_self _ _,
        fun c hc => List.mem_cons_of_mem _ hc⟩
    · exact absurd h (by simp)

theorem expectStr_some (pat cs r : List Char)
    (h : expectStr pat cs = some r) :
    (∀ c ∈ pat, c ∈ cs) ∧ ∀ c ∈ r, c ∈ cs := by
  unfold expectStr at h
  split at h
  · rename_i hs
    have hr : r = cs.drop pat.length := (Option.some_inj.mp h).symm
    subst hr
    exact ⟨mem_of_startsWith pat cs hs,
      fun c hc => List.mem_of_mem_drop hc⟩
  · exact absurd h (by simp)

theorem quoteReplMatcher_subset (q1 q2 : Char) (orig newSafe : List Char) :
    ∀ (prev : Option Char) (cs : List Char) (n : Nat) (out : List Char),
      quoteReplMatcher q1 q2 orig newSafe prev cs = some (n, out) →
      ∀ c ∈ out, c ∈ cs ∨ c ∈ newSafe := by
  intro prev cs n out h c hc
  unfold quoteReplMatcher at h
  cases e₁ : expectLit q1 cs with
  | none => rw [e₁] at h; exact absurd h (by simp)
  | some r₀ =>
  rw [e₁] at h
  dsimp only at h
  obtain ⟨hq1, hr₀⟩ := expectLit_some q1 cs r₀ e₁
  cases e₂ : expectStr orig r₀ with
  | none => rw [e₂] at h; exact absurd h (by simp)
  | some r₁ =>
  rw [e₂] at h
  dsimp only at h
  obtain ⟨horig, hr₁⟩ := expectStr_some orig r₀ r₁ e₂
  cases e₃ : expectLit q1 r₁ with
  | none => rw [e₃] at h; exact absurd h (by simp)
  | some r₂ =>
  rw [e₃] at h
  dsimp only at h
  obtain ⟨-, hr₂⟩ := expectLit_some q1 r₁ r₂ e₃
  cases e₄ : expectStr ('=' :: '>' :: [])
      (r₂.drop (r₂.takeWhile isSpaceChar).length) with
  | none => rw [e₄] at h; exact absurd h (by simp)
  | some r₄ =>
  rw [e₄] at h
  dsimp only at h
  obtain ⟨harrow, hr₄'⟩ := expectStr_some _ _ _ e₄
  have hdrop₂ : ∀ x, x ∈ r₂.drop (r₂.takeWhile isSpaceChar).length →
      x ∈ cs := fun x hx =>
    hr₀ x (hr₁ x (hr₂ x (List.mem_of_mem_drop hx)))
  have hr₄ : ∀ x, x ∈ r₄ → x ∈ cs := fun x hx => hdrop₂ x (hr₄' x hx)
  cases e₅ : expectLit q2 (r₄.drop (r₄.takeWhile isSpaceChar).length) with
  | none => rw [e₅] at h; exact absurd h (by simp)
  | some r₆ =>
  rw [e₅] at h
  dsimp only at h
  obtain ⟨hq₂', hr₆'⟩ := expectLit_some _ _ _ e₅
  have hq2 : q2 ∈ cs := hr₄ q2 (List.mem_of_mem_drop hq₂')
  have hr₆ : ∀ x, x ∈ r₆ → x ∈ cs := fun x hx =>
    hr₄ x (List.mem_of_mem_drop (hr₆' x hx))
  cases e₆ : expectLit q2
      (r₆.drop (r₆.takeWhile (fun d => d ≠ q2)).length) with
  | none => rw [e₆] at h; exact absurd h (by simp)
  | some rEnd =>
  rw [e₆] at h
  dsimp only at h
  rw [Option.some.injEq, Prod.mk.injEq] at h
  obtain ⟨-, hout⟩ := h
  subst hout
  have hws₁ : ∀ x, x ∈ r₂.takeWhile isSpaceChar → x ∈ cs := fun x hx =>
    hr₀ x (hr₁ x (hr₂ x (mem_of_mem_takeWhile _ _ _ hx)))
  have hws₂ : ∀ x, x ∈ r₄.takeWhile isSpaceChar → x ∈ cs := fun x hx =>
    hr₄ x (mem_of_mem_takeWhile _ _ _ hx)
  have horigcs : ∀ x, x ∈ orig → x ∈ cs := fun x hx =>
    hr₀ x (horig x hx)
  have himp₁ : c = q1 → c ∈ cs := fun e => e ▸ hq1
  have himp₂ : c ∈ orig → c ∈ cs := horigcs c
  have himp₃ : c ∈ r₂.takeWhile isSpaceChar → c ∈ cs := hws₁ c
  have himp₄ : c = '=' → c ∈ cs := fun e =>
    e ▸ hdrop₂ '=' (harrow '=' (List.mem_cons_self _ _))
  have himp₅ : c = '>' → c ∈ cs := fun e =>
    e ▸ hdrop₂ '>' (harrow '>' (List.mem_cons_of_mem _
      (List.mem_cons_self _ _)))
  have himp₆ : c ∈ r₄.takeWhile isSpaceChar → c ∈ cs := hws₂ c
  have himp₇ : c = q2 → c ∈ cs := fun e => e ▸ hq2
  simp only [List.mem_append, List.mem_cons, List.mem_singleton,
    List.not_mem_nil, or_false, List.append_assoc, List.cons_append] at hc
  rcases hc with hc | hc | hc | hc | hc | hc | hc | hc | hc | hc | hc
  · exact Or.inl (himp₁ hc)
  · exact Or.inl (himp₂ hc)
  · exact Or.inl (himp₁ hc)
  · exact Or.inl (himp₃ hc)
  · exact Or.inl (himp₄ hc)
  · exact Or.inl (himp₅ hc)
  · exact Or.inl (himp₆ hc)
  · exact Or.inl (himp₇ hc)
  · exact absurd hc not_false
  · exact Or.inr hc
  · exact Or.inl (himp₇ hc)

theorem bareMatcher_subset (orig newSafe : List Char) :
    ∀ (prev : Option Char) (cs : List Char) (n : Nat) (out : List Char),
      bareMatcher orig newSafe prev cs = some (n, out) →
      ∀ c ∈ out, c ∈ cs ∨ c ∈ newSafe := by
  intro prev cs n out h c hc
  cases orig with
  | nil =>
    simp only [bareMatcher] at h
    split at h
    · rw [Option.some.injEq, Prod.mk.injEq] at h
      exact Or.inr (h.2 ▸ hc)
    · exact absurd h (by simp)
  | cons o os =>
    simp only [bareMatcher] at h
    split at h
    · rw [Option.some.injEq, Prod.mk.injEq] at h
      exact Or.inr (h.2 ▸ hc)
    · exact absurd h (by simp)

theorem subAllGo_subset (matcher : ReplMatcher) (extra : List Char)
    (hm : ∀ prev cs n out, matcher prev cs = some (n, out) →
      ∀ c ∈ out, c ∈ cs ∨ c ∈ extra) :
    ∀ (fuel : Nat) (prev : Option Char) (cs : List Char) (c : Char),
      c ∈ subAllGo matcher fuel prev cs → c ∈ cs ∨ c ∈ extra := by
  intro fuel
  induction fuel with
  | zero =>
    intro prev cs c h
    cases cs with
    | nil =>
      simp only [subAllGo] at h
      cases hm' : matcher prev [] with
      | none => rw [hm'] at h; exact absurd h (by simp)
      | some p =>
        rw [hm'] at h
        exact hm prev [] p.1 p.2 (by rw [hm']) c h
    | cons a as => exact Or.inl h
  | succ f ih =>
    intro prev cs c h
    cases cs with
    | nil =>
      simp only [subAllGo] at h
      cases hm' : matcher prev [] with
      | none => rw [hm'] at h; exact absurd h (by simp)
      | some p =>
        rw [hm'] at h
        exact hm prev [] p.1 p.2 (by rw [hm']) c h
    | cons a as =>
      simp only [subAllGo] at h
      cases hm' : matcher prev (a :: as) with
      | none =>
        rw [hm'] at h
        rcases List.mem_cons.mp h with h | h
        · exact Or.inl (h ▸ List.mem_cons_self _ _)
        · rcases ih (some a) as c h with h' | h'
          · exact Or.inl (List.mem_cons_of_mem _ h')
          · exact Or.inr h'
      | some p =>
        rw [hm'] at h
        obtain ⟨n, out⟩ := p
        cases n with
        | zero =>
          rcases List.mem_append.mp h with h | h
          · exact hm prev (a :: as) 0 out hm' c h
          · rcases List.mem_cons.mp h with h | h
            · exact Or.inl (h ▸ List.mem_cons_self _ _)
            · rcases ih (some a) as c h with h' | h'
              · exact Or.inl (List.mem_cons_of_mem _ h')
              · exact Or.inr h'
        | succ m =>
          rcases List.mem_append.mp h with h | h
          · exact hm prev (a :: as) (m + 1) out hm' c h
          · rcases ih ((a :: as).get? m) ((a :: as).drop (m + 1)) c h
              with h' | h'
            · exact Or.inl (List.mem_of_mem_drop h')
            · exact Or.inr h'

theorem mem_replaceSubNE (pat rep : List Char) :
    ∀ (fuel : Nat) (s : List Char) (c : Char),
      c ∈ replaceSubNE pat rep fuel s → c ∈ s ∨ c ∈ rep := by
  intro fuel
  induction fuel with
  | zero =>
    intro s c h
    cases s with
    | nil => exact absurd h (by simp [replaceSubNE])
    | cons a as => exact Or.inl h
  | succ f ih =>
    intro s c h
    cases s with
    | nil => exact absurd h (by simp [replaceSubNE])
    | cons a as =>
      simp only [replaceSubNE] at h
      split at h
      · rcases List.mem_append.mp h with h | h
        · exact Or.inr h
        · rcases ih _ c h with h' | h'
          · exact Or.inl (List.mem_of_mem_drop h')
          · exact Or.inr h'
      · rcases List.mem_cons.mp h with h | h
        · exact Or.inl (h ▸ List.mem_cons_self _ _)
        · rcases ih as c h with h' | h'
          · exact Or.inl (List.mem_cons_of_mem _ h')
          · exact Or.inr h'

theorem mem_interleaveRep (rep : List Char) :
    ∀ (s : List Char) (c : Char),
      c ∈ interleaveRep rep s → c ∈ s ∨ c ∈ rep := by
  intro s
  induction s with
  | nil => intro c h; exact Or.inr h
  | cons a as ih =>
    intro c h
    simp only [interleaveRep] at h
    rcases List.mem_append.mp h with h | h
    · exact Or.inr h
    · rcases List.mem_cons.mp h with h | h
      · exact Or.inl (h ▸ List.mem_cons_self _ _)
      · rcases ih c h with h' | h'
        · exact Or.inl (List.mem_cons_of_mem _ h')
        · exact Or.inr h'

theorem mem_pyReplace (s old new : List Char) (c : Char)
    (h : c ∈ pyReplace s old new) : c ∈ s ∨ c ∈ new := by
  unfold pyReplace at h
  split at h
  · exact mem_interleaveRep new s c h
  · exact mem_replaceSubNE old new _ s c h

theorem tryPattern_eq_subAll (matcher : ReplMatcher) (line u : List Char)
    (h : tryPattern matcher line = some u) : u = subAll matcher line := by
  unfold tryPattern at h
  split at h
  · dsimp only at h
    split at h
    · exact (Option.some_inj.mp h).symm
    · exact absurd h (by simp)
  · exact absurd h (by simp)

theorem mem_updateLineTranslation (line ov tv : List Char) (pu : Nat)
    (c : Char) (h : c ∈ updateLineTranslation line ov tv pu) :
    c ∈ line ∨ c ∈ escapeQuotesValue tv := by
  unfold updateLineTranslation at h
  dsimp only at h
  cases h₁ : tryPattern (quoteReplMatcher '\'' '\'' ov
      (escapeQuotesValue tv)) line with
  | some u =>
    rw [h₁] at h
    dsimp only at h
    rw [tryPattern_eq_subAll _ _ _ h₁] at h
    exact subAllGo_subset _ _ (quoteReplMatcher_subset _ _ _ _) _ _ _ _ h
  | none =>
  rw [h₁] at h
  dsimp only at h
  cases h₂ : tryPattern (quoteReplMatcher '"' '"' ov
      (escapeQuotesValue tv)) line with
  | some u =>
    rw [h₂] at h
    dsimp only at h
    rw [tryPattern_eq_subAll _ _ _ h₂] at h
    exact subAllGo_subset _ _ (quoteReplMatcher_subset _ _ _ _) _ _ _ _ h
  | none =>
  rw [h₂] at h
  dsimp only at h
  cases h₃ : tryPattern (quoteReplMatcher '\'' '"' ov
      (escapeQuotesValue tv)) line with
  | some u =>
    rw [h₃] at h
    dsimp only at h
    rw [tryPattern_eq_subAll _ _ _ h₃] at h
    exact subAllGo_subset _ _ (quoteReplMatcher_subset _ _ _ _) _ _ _ _ h
  | none =>
  rw [h₃] at h
  dsimp only at h
  cases h₄ : tryPattern (quoteReplMatcher '"' '\'' ov
      (escapeQuotesValue tv)) line with
  | some u =>
    rw [h₄] at h
    dsimp only at h
    rw [tryPattern_eq_subAll _ _ _ h₄] at h
    exact subAllGo_subset _ _ (quoteReplMatcher_subset _ _ _ _) _ _ _ _ h
  | none =>
  rw [h₄] at h
  dsimp only at h
  cases h₅ : tryPattern (bareMatcher ov (escapeQuotesValue tv)) line with
  | some u =>
    rw [h₅] at h
    dsimp only at h
    rw [tryPattern_eq_subAll _ _ _ h₅] at h
    exact subAllGo_subset _ _ (bareMatcher_subset _ _) _ _ _ _ h
  | none =>
  rw [h₅] at h
  dsimp only at h
  split at h
  · exact mem_pyReplace line ov (escapeQuotesValue tv) c h
  · exact Or.inl h

theorem no_newline_escapeQuotesValue (tv : List Char)
    (h : '\n' ∉ tv) : '\n' ∉ escapeQuotesValue tv := by
  intro hmem
  unfold escapeQuotesValue at hmem
  rcases mem_pyReplace _ _ _ _ hmem with h' | h'
  · rcases mem_pyReplace _ _ _ _ h' with h'' | h''
    · exact h h''
    · simp at h''
  · simp at h'

theorem no_newline_updateLineTranslation (line ov tv : List Char)
    (pu : Nat) (hl : '\n' ∉ line) (ht : '\n' ∉ tv) :
    '\n' ∉ updateLineTranslation line ov tv pu := by
  intro hmem
  rcases mem_updateLineTranslation line ov tv pu _ hmem with h | h
  · exact hl h
  · exact no_newline_escapeQuotesValue tv ht h

/-! ## Frame lemmas for the rebuild fold (claim C2) -/

theorem applyItemToLines_length (ls : List (List Char)) (it : TItem) :
    (applyItemToLines ls it).length = ls.length := by
  unfold applyItemToLines
  split
  · dsimp only
    split
    · split
      · split
        · exact List.length_set ls _ _
        · rfl
      · rfl
    · rfl
  · rfl

theorem foldl_applyItemToLines_length :
    ∀ (items : List TItem) (ls : List (List Char)),
      (items.foldl applyItemToLines ls).length = ls.length := by
  intro items
  induction items with
  | nil => intro ls; rfl
  | cons x xs ih =>
    intro ls
    show (xs.foldl applyItemToLines (applyItemToLines ls x)).length =
      ls.length
    rw [ih, applyItemToLines_length]

theorem applyItemToLines_no_newline (ls : List (List Char)) (it : TItem)
    (hls : ∀ l ∈ ls, '\n' ∉ l) (hit : '\n' ∉ it.translated_value) :
    ∀ l ∈ applyItemToLines ls it, '\n' ∉ l := by
  intro l hl
  unfold applyItemToLines at hl
  split at hl
  · dsimp only at hl
    split at hl
    · cases hget : ls.get? (it.line_number - 1).toNat with
      | none => rw [hget] at hl; exact hls l hl
      | some ol =>
        rw [hget] at hl
        dsimp only at hl
        split at hl
        · rcases List.mem_or_eq_of_mem_set hl with h' | h'
          · exact hls l h'
          · subst h'
            exact no_newline_updateLineTranslation _ _ _ _
              (hls ol (List.get?_mem hget)) hit
        · exact hls l hl
    · exact hls l hl
  · exact hls l hl

theorem foldl_no_newline :
    ∀ (items : List TItem) (ls : List (List Char)),
      (∀ it ∈ items, '\n' ∉ it.translated_value) →
      (∀ l ∈ ls, '\n' ∉ l) →
      ∀ l ∈ items.foldl applyItemToLines ls, '\n' ∉ l := by
  intro items
  induction items with
  | nil => intro ls _ hls; exact hls
  | cons x xs ih =>
    intro ls hit hls
    exact ih _ (fun it h => hit it (List.mem_cons_of_mem _ h))
      (applyItemToLines_no_newline ls x hls
        (hit x (List.mem_cons_self _ _)))

theorem rewriteGuard_spec (it : TItem) (h : rewriteGuard it = true) :
    it.translated_value ≠ it.original_value ∧
    hasArabicContent it.translated_value = true := by
  simp only [rewriteGuard, Bool.and_eq_true, decide_eq_true_eq] at h
  exact ⟨h.2, h.1.2⟩

theorem applyItemToLines_get?_frame (ls : List (List Char)) (it : TItem)
    (i : Nat) (hne : (applyItemToLines ls it).get? i ≠ ls.get? i) :
    rewriteGuard it = true ∧ it.line_number = (i : Int) + 1 := by
  unfold applyItemToLines at hne
  split at hne
  case isFalse => exact absurd rfl hne
  case isTrue hg =>
    refine ⟨hg, ?_⟩
    dsimp only at hne
    split at hne
    case isFalse => exact absurd rfl hne
    case isTrue hr =>
      cases hget : ls.get? (it.line_number - 1).toNat with
      | none => rw [hget] at hne; exact absurd rfl hne
      | some ol =>
        rw [hget] at hne
        dsimp only at hne
        split at hne
        · by_cases hi : i = (it.line_number - 1).toNat
          · subst hi
            have h0 : (0 : Int) ≤ it.line_number - 1 := hr.1
            omega
          · exact absurd (List.get?_set_ne _ _ (fun e => hi e.symm)) hne
        · exact absurd rfl hne

theorem foldl_get?_frame :
    ∀ (items : List TItem) (ls : List (List Char)) (i : Nat),
      (items.foldl applyItemToLines ls).get? i ≠ ls.get? i →
      ∃ it ∈ items, rewriteGuard it = true ∧
        it.line_number = (i : Int) + 1 := by
  intro items
  induction items with
  | nil => intro ls i h; exact absurd rfl h
  | cons x xs ih =>
    intro ls i h
    by_cases hmid : (xs.foldl applyItemToLines (applyItemToLines ls x)).get? i
        = (applyItemToLines ls x).get? i
    · have hx : (applyItemToLines ls x).get? i ≠ ls.get? i := by
        intro he
        exact h (hmid ▸ he ▸ rfl)
      exact ⟨x, List.mem_cons_self _ _, applyItemToLines_get?_frame ls x i hx⟩
    · obtain ⟨it, hmem, hp⟩ := ih (applyItemToLines ls x) i hmid
      exact ⟨it, List.mem_cons_of_mem _ hmem, hp⟩

/-! ## Claim C2 — frame and line count of rebuild -/

/-- C2 counterexample: with a translated value containing a newline,
the rebuilt text has more lines than the source, so "the output has
exactly the same number of lines as the input" fails as stated. -/
theorem c2_line_count_counterexample :
    (splitLines (buildNewContent ('\'' :: 'k' :: '\'' :: ' ' :: '=' ::
        '>' :: ' ' :: '\'' :: 'h' :: 'e' :: 'l' :: 'l' :: 'o' :: '\'' :: [])
      [c2Item])).length ≠
    (splitLines ('\'' :: 'k' :: '\'' :: ' ' :: '=' :: '>' :: ' ' ::
      '\'' :: 'h' :: 'e' :: 'l' :: 'l' :: 'o' :: '\'' :: [])).length := by
  decide

/-- C2 amended: provided no item's `translated_value` contains a
newline, `rebuild` keeps the line count, and a changed output line is
always addressed by an item whose `translated_value` differs from its
`original_value` and passes the majority-script test (all other lines
are byte-identical). -/
theorem c2_frame_amended :
    ∀ (source : List Char) (items : List TItem),
      (∀ it ∈ items, '\n' ∉ it.translated_value) →
      ((splitLines (buildNewContent source items)).length =
          (splitLines source).length ∧
        ∀ i : Nat,
          (splitLines (buildNewContent source items)).get? i ≠
            (splitLines source).get? i →
          ∃ it ∈ items, it.line_number = (i : Int) + 1 ∧
            it.translated_value ≠ it.original_value ∧
            hasArabicContent it.translated_value = true) := by
  intro source items hnl
  have hnl' : ∀ l ∈ (sortByLineDesc items).foldl applyItemToLines
      (splitLines source), '\n' ∉ l :=
    foldl_no_newline _ _
      (fun it h => hnl it ((mem_sortByLineDesc it items).mp h))
      (splitLines_no_newline source)
  have hlen : ((sortByLineDesc items).foldl applyItemToLines
      (splitLines source)).length = (splitLines source).length :=
    foldl_applyItemToLines_length _ _
  have hnonnil : (sortByLineDesc items).foldl applyItemToLines
      (splitLines source) ≠ [] := by
    intro he
    apply splitLines_ne_nil source
    have : (splitLines source).length = 0 := by rw [← hlen, he]; rfl
    exact List.length_eq_zero.mp this
  have hsplit : splitLines (buildNewContent source items) =
      (sortByLineDesc items).foldl applyItemToLines (splitLines source) := by
    unfold buildNewContent
    exact splitLines_joinLines _ hnonnil hnl'
  constructor
  · rw [hsplit]; exact hlen
  · intro i hne
    rw [hsplit] at hne
    obtain ⟨it, hmem, hg, hln⟩ := foldl_get?_frame _ _ i hne
    obtain ⟨hch, har⟩ := rewriteGuard_spec it hg
    exact ⟨it, (mem_sortByLineDesc it items).mp hmem, hln, hch, har⟩

/-- Witness for the amended C2 at a concrete newline-free item. -/
theorem c2_frame_witness :
    (splitLines (buildNewContent
        ('\'' :: 'k' :: '\'' :: ' ' :: '=' :: '>' :: ' ' :: '\'' ::
          'h' :: 'i' :: '\'' :: []) [c3Item])).length =
      (splitLines ('\'' :: 'k' :: '\'' :: ' ' :: '=' :: '>' :: ' ' ::
        '\'' :: 'h' :: 'i' :: '\'' :: [])).length :=
  (c2_frame_amended _ [c3Item] (by decide)).1

/-! ## Deduplication lemmas and claim C7 -/

theorem dedupGo_sublist :
    ∀ (items : List TItem) (seen : List (List Char × List Char)),
      (dedupGo seen items).Sublist items := by
  intro items
  induction items with
  | nil => intro seen; simp [dedupGo]
  | cons x xs ih =>
    intro seen
    simp only [dedupGo]
    split
    · exact (ih seen).cons x
    · exact (ih (pairKey x :: seen)).cons₂ x

theorem dedupGo_not_seen :
    ∀ (items : List TItem) (seen : List (List Char × List Char))
      (it : TItem), it ∈ dedupGo seen items → pairKey it ∉ seen := by
  intro items
  induction items with
  | nil => intro seen it h; exact absurd h (by simp [dedupGo])
  | cons x xs ih =>
    intro seen it h
    simp only [dedupGo] at h
    split at h
    · exact ih seen it h
    · rcases List.mem_cons.mp h with h' | h'
      · subst h'
        assumption
      · intro hmem
        exact ih _ it h' (List.mem_cons_of_mem _ hmem)

theorem dedupGo_pairwise :
    ∀ (items : List TItem) (seen : List (List Char × List Char)),
      List.Pairwise (fun a b => pairKey a ≠ pairKey b)
        (dedupGo seen items) := by
  intro items
  induction items with
  | nil => intro seen; simp [dedupGo]
  | cons x xs ih =>
    intro seen
    simp only [dedupGo]
    split
    · exact ih seen
    · refine List.Pairwise.cons ?_ (ih (pairKey x :: seen))
      intro y hy he
      exact dedupGo_not_seen xs _ y hy (he ▸ List.mem_cons_self _ _)

theorem dedupGo_complete :
    ∀ (items : List TItem) (seen : List (List Char × List Char))
      (it : TItem), it ∈ items → pairKey it ∉ seen →
      ∃ it' ∈ dedupGo seen items, pairKey it' = pairKey it := by
  intro items
  induction items with
  | nil => intro seen it h; exact absurd h (by simp)
  | cons x xs ih =>
    intro seen it h hns
    simp only [dedupGo]
    split
    · rename_i hx
      rcases List.mem_cons.mp h with h' | h'
      · exact absurd (h' ▸ hx) hns
      · exact ih seen it h' hns
    · rcases List.mem_cons.mp h with h' | h'
      · exact ⟨x, List.mem_cons_self _ _, h' ▸ rfl⟩
      · by_cases hk : pairKey it = pairKey x
        · exact ⟨x, List.mem_cons_self _ _, hk.symm⟩
        · obtain ⟨it', hmem, he⟩ := ih (pairKey x :: seen) it h'
            (by
              intro hc
              rcases List.mem_cons.mp hc with hc | hc
              · exact hk hc
              · exact hns hc)
          exact ⟨it', List.mem_cons_of_mem _ hmem, he⟩

theorem dedupGo_find? :
    ∀ (items : List TItem) (seen : List (List Char × List Char))
      (it' : TItem), it' ∈ dedupGo seen items →
      List.find? (fun x => pairKey x = pairKey it') items = some it' := by
  intro items
  induction items with
  | nil => intro seen it' h; exact absurd h (by simp [dedupGo])
  | cons x xs ih =>
    intro seen it' h
    simp only [dedupGo] at h
    split at h
    · rename_i hx
      have hne : pairKey x ≠ pairKey it' := by
        intro he
        exact dedupGo_not_seen xs seen it' h (he ▸ hx)
      rw [List.find?_cons_of_neg _ (by simpa using hne)]
      exact ih seen it' h
    · rename_i hx
      rcases List.mem_cons.mp h with h' | h'
      · subst h'
        rw [List.find?_cons_of_pos _ (by simp)]
      · have hne : pairKey x ≠ pairKey it' := by
          intro he
          exact dedupGo_not_seen xs _ it' h'
            (he ▸ List.mem_cons_self _ _)
        rw [List.find?_cons_of_neg _ (by simpa using hne)]
        exact ih _ it' h'

theorem mem_rawExtractOptimized_line (source : List Char) (it : TItem)
    (h : it ∈ rawExtractOptimized source) :
    1 ≤ it.line_number ∧
    (it.line_number - 1).toNat < (splitLines source).length ∧
    ((splitLines source).getD (it.line_number - 1).toNat []).length
      ≤ 1000 := by
  obtain ⟨k, hk, hmem⟩ := mem_chunkedGo_decomp _ 0 _ it h
  have hline :
      it.line_number = (((0 + k : Nat) : Int)) + 1 := by
    obtain ⟨pi, kv, hkv⟩ := mem_itemsOfLine_pair _ _ _ it hmem
    exact (itemFromPair_fields _ _ _ _ _ _ hkv).2.2
  have hk' : (it.line_number - 1).toNat = k := by
    rw [hline]
    simp
  refine ⟨by rw [hline]; omega, by rw [hk']; exact hk, ?_⟩
  rw [hk']
  have hgetd : (splitLines source).getD k [] =
      (splitLines source).get ⟨k, hk⟩ := by
    rw [List.getD_eq_get?, List.get?_eq_get hk]
    rfl
  rw [hgetd]
  exact mem_itemsOfLine_short _ _ it hmem

/-- C7: for a source longer than 100000 characters, extraction takes
the chunked path, produces no item for any line longer than 1000
characters, and the final result has pairwise-distinct
`(key.lower(), original_value.lower())` pairs, is a subsequence of the
pre-deduplication extraction, covers every pair that occurred, and
keeps for each pair exactly its first occurrence in extraction
order. -/
theorem c7_large_file :
    ∀ source : List Char, source.length > 100000 →
      ((∀ it ∈ extractTranslations source,
          1 ≤ it.line_number ∧
          (it.line_number - 1).toNat < (splitLines source).length ∧
          ((splitLines source).getD (it.line_number - 1).toNat []).length
            ≤ 1000) ∧
       List.Pairwise (fun a b => pairKey a ≠ pairKey b)
         (extractTranslations source) ∧
       (extractTranslations source).Sublist (rawExtractOptimized source) ∧
       (∀ it ∈ rawExtractOptimized source,
         ∃ it' ∈ extractTranslations source, pairKey it' = pairKey it) ∧
       (∀ it' ∈ extractTranslations source,
         List.find? (fun x => pairKey x = pairKey it')
           (rawExtractOptimized source) = some it')) := by
  intro source hbig
  have hext : extractTranslations source =
      dedupGo [] (rawExtractOptimized source) := by
    unfold extractTranslations
    rw [if_pos hbig]
    rfl
  refine ⟨?_, ?_, ?_, ?_, ?_⟩
  · intro it hmem
    rw [hext] at hmem
    exact mem_rawExtractOptimized_line source it
      ((dedupGo_sublist _ _).mem hmem)
  · rw [hext]; exact dedupGo_pairwise _ _
  · rw [hext]; exact dedupGo_sublist _ _
  · intro it hmem
    rw [hext]
    exact dedupGo_complete _ [] it hmem (by simp)
  · intro it' hmem
    rw [hext] at hmem
    exact dedupGo_find? _ [] it' hmem

/-- Witness for C7 on a synthetic 100001-character source. -/
theorem c7_large_file_witness :
    List.Pairwise (fun a b => pairKey a ≠ pairKey b)
      (extractTranslations (List.replicate 100001 'x')) :=
  (c7_large_file (List.replicate 100001 'x')
    (by rw [List.length_replicate]; omega)).2.1

/-! ## Similarity grouping lemmas and claim C8 -/

theorem calcSimilarity_eq_jaccard (t1 t2 : List Char) :
    calcSimilarity t1 t2 = jaccardSimilarity t1 t2 := by
  unfold calcSimilarity jaccardSimilarity
  dsimp only
  by_cases he : wordsOf t1 = ∅ ∨ wordsOf t2 = ∅
  · rw [if_pos he]
    have hint : (wordsOf t1 ∩ wordsOf t2).card = 0 := by
      rcases he with h | h <;> simp [h]
    by_cases hu : (wordsOf t1 ∪ wordsOf t2).card = 0
    · rw [if_pos hu]
    · rw [if_neg hu, hint]
      simp
  · rw [if_neg he]
    push_neg at he
    have hu : (wordsOf t1 ∪ wordsOf t2).card ≠ 0 := by
      intro h0
      rcases Finset.union_eq_empty.mp (Finset.card_eq_zero.mp h0) with
        ⟨h1, -⟩
      exact he.1 h1
    rw [if_pos (Nat.pos_of_ne_zero hu), if_neg hu, Rat.mkRat_eq_div]
    push_cast
    rfl

theorem specScan_of_full (ts : List (List Char)) (θ : ℚ)
    (seed : List Char) :
    ∀ (js p : List Nat) (g : List (List Char)), 10 ≤ g.length →
      specScan ts θ seed js p g = (g, p) := by
  intro js
  induction js with
  | nil => intro p g h; rfl
  | cons j js ih =>
    intro p g h
    simp only [specScan]
    rw [if_pos h]

theorem innerScanGo_eq_specScan (ts : List (List Char)) (θ : ℚ)
    (seed : List Char) :
    ∀ (js p : List Nat) (g : List (List Char)), g.length < 10 →
      innerScanGo ts θ seed js p g = specScan ts θ seed js p g := by
  intro js
  induction js with
  | nil => intro p g h; rfl
  | cons j js ih =>
    intro p g h
    simp only [innerScanGo, specScan]
    rw [if_neg (by omega : ¬ g.length ≥ 10)]
    by_cases hp : j ∈ p
    · rw [if_pos hp, if_neg (fun hc => hc.1 hp)]
      exact ih p g h
    · rw [if_neg hp]
      by_cases hs : calcSimilarity seed (ts.getD j []) ≥ θ
      · rw [if_pos hs, if_pos (show j ∉ p ∧
            calcSimilarity seed (ts.getD j []) ≥ θ from ⟨hp, hs⟩)]
        by_cases hlen : (g ++ [ts.getD j []]).length ≥ 10
        · rw [if_pos hlen]
          exact (specScan_of_full ts θ seed js _ _ hlen).symm
        · rw [if_neg hlen]
          exact ih _ _ (by omega)
      · rw [if_neg hs, if_neg (fun hc => hs hc.2)]
        exact ih p g h

theorem outerGo_eq_specGo (ts : List (List Char)) (θ : ℚ) :
    ∀ (is processed : List Nat),
      outerGo ts θ is processed = specGrouping.go ts θ is processed := by
  intro is
  induction is with
  | nil => intro p; rfl
  | cons i is ih =>
    intro p
    simp only [outerGo, specGrouping.go]
    by_cases hp : i ∈ p
    · rw [if_pos hp, if_pos hp]
      exact ih p
    · rw [if_neg hp, if_neg hp]
      rw [innerScanGo_eq_specScan ts θ _ _ _ _ (by simp), ih]

theorem smartTextGrouping_eq_spec (ts : List (List Char)) (θ : ℚ) :
    smartTextGrouping ts θ = specGrouping ts θ :=
  outerGo_eq_specGo ts θ _ _

theorem specScan_length_le (ts : List (List Char)) (θ : ℚ)
    (seed : List Char) :
    ∀ (js p : List Nat) (g : List (List Char)), g.length ≤ 10 →
      (specScan ts θ seed js p g).1.length ≤ 10 := by
  intro js
  induction js with
  | nil => intro p g h; exact h
  | cons j js ih =>
    intro p g h
    simp only [specScan]
    by_cases h10 : g.length ≥ 10
    · rw [if_pos h10]
      exact h
    · rw [if_neg h10]
      by_cases hc : j ∉ p ∧ calcSimilarity seed (ts.getD j []) ≥ θ
      · rw [if_pos hc]
        exact ih _ _ (by simp; omega)
      · rw [if_neg hc]
        exact ih _ _ h

theorem specGo_groups_le (ts : List (List Char)) (θ : ℚ) :
    ∀ (is p : List Nat) (g : List (List Char)),
      g ∈ specGrouping.go ts θ is p → g.length ≤ 10 := by
  intro is
  induction is with
  | nil => intro p g h; exact absurd h (by simp [specGrouping.go])
  | cons i is ih =>
    intro p g h
    simp only [specGrouping.go] at h
    split at h
    · exact ih _ _ h
    · rcases List.mem_cons.mp h with h' | h'
      · exact h' ▸ specScan_length_le ts θ _ _ _ _ (by simp)
      · exact ih _ _ h'

/-- C8: the concrete grouping example; the similarity is exactly the
Jaccard intersection-over-union of the lowercase whitespace-tokenized
word sets; the whole algorithm coincides with the claim's description
(`specGrouping`: a later unclaimed text joins exactly when its
similarity to the seed is at least the threshold, groups stop accepting
members at 10); and every produced group has at most 10 texts. -/
theorem c8_smart_grouping :
    smartTextGrouping ["hello world".toList, "hello world test".toList,
        "totally unrelated phrase".toList] (1 / 2) =
      [["hello world".toList, "hello world test".toList],
       ["totally unrelated phrase".toList]] ∧
    (∀ t1 t2, calcSimilarity t1 t2 = jaccardSimilarity t1 t2) ∧
    (∀ (ts : List (List Char)) (θ : ℚ),
      smartTextGrouping ts θ = specGrouping ts θ) ∧
    (∀ (ts : List (List Char)) (θ : ℚ) (g : List (List Char)),
      g ∈ smartTextGrouping ts θ → g.length ≤ 10) := by
  refine ⟨?_, calcSimilarity_eq_jaccard, smartTextGrouping_eq_spec, ?_⟩
  · have hθ : (1 / 2 : ℚ) = mkRat 1 2 := by
      rw [Rat.mkRat_eq_div]
      norm_num
    rw [hθ]
    decide
  · intro ts θ g hg
    rw [smartTextGrouping_eq_spec] at hg
    exact specGo_groups_le ts θ _ _ g hg

/-- Witness for C8's group-size clause on the concrete example. -/
theorem c8_smart_grouping_witness :
    (["hello world".toList, "hello world test".toList] :
      List (List Char)).length ≤ 10 :=
  c8_smart_grouping.2.2.2
    ["hello world".toList, "hello world test".toList,
      "totally unrelated phrase".toList] (mkRat 1 2)
    ["hello world".toList, "hello world test".toList] (by decide)

/-! ## Load chain lemmas and claim C4 -/

theorem firstDecodeGo_none_iff (bs : List Byte) :
    ∀ es : List EncodingName,
      firstDecodeGo bs es = none ↔ ∀ e ∈ es, decodeWith e bs = none := by
  intro es
  induction es with
  | nil => simp [firstDecodeGo]
  | cons e es ih =>
    simp only [firstDecodeGo]
    cases hd : decodeWith e bs with
    | some t =>
      constructor
      · intro h; exact absurd h (by simp)
      · intro h
        exact absurd hd (by rw [h e (List.mem_cons_self _ _)]; simp)
    | none =>
      rw [ih]
      constructor
      · intro h e' he'
        rcases List.mem_cons.mp he' with rfl | he'
        · exact hd
        · exact h e' he'
      · intro h e' he'
        exact h e' (List.mem_cons_of_mem _ he')

/-- Latin-1 decodes every byte sequence, so the candidate chain never
fails. -/
theorem firstDecode_ne_none (bs : List Byte) : firstDecode bs ≠ none := by
  intro h
  have hall := (firstDecodeGo_none_iff bs encodingCandidates).mp h
  have := hall .iso8859_1 (by simp [encodingCandidates])
  simp [decodeWith, latin1Decode] at this

/-- C4 counterexample: the claim's three "exactly when" clauses cannot
all hold, because the checks are prioritized — a missing path with a
non-`.php` suffix surfaces the not-found error, not the format error,
although the format clause's right-hand side holds. -/
theorem c4_error_counterexample :
    ¬ (∀ (path suffix : List Char) (pathExists : Bool)
        (content : List Byte),
        ((∃ p, loadFile path pathExists suffix content =
            .notFound p) ↔ pathExists = false) ∧
        (loadFile path pathExists suffix content = .formatError ↔
          lowerChars suffix ≠ '.' :: 'p' :: 'h' :: 'p' :: []) ∧
        (loadFile path pathExists suffix content = .encodingError ↔
          ∀ e ∈ encodingCandidates, decodeWith e content = none)) := by
  intro h
  have h2 := (h [] ('.' :: 't' :: 'x' :: 't' :: []) false []).2.1
  have h3 : loadFile [] false ('.' :: 't' :: 'x' :: 't' :: []) [] =
      .formatError := h2.mpr (by decide)
  exact absurd h3 (by decide)

/-- C4 amended: the error kinds are prioritized.  `load` fails with the
(path-naming) not-found error exactly when the path does not exist;
with the format error exactly when the path exists and the lowercased
suffix is not `.php`; and with the encoding error exactly when the path
exists, the suffix is `.php`, and every one of the ordered candidates
(UTF-8, UTF-8-sig, windows-1256, Latin-1, cp1252) fails — which, since
Latin-1 decodes every byte sequence, never happens. -/
theorem c4_load_errors :
    ∀ (path suffix : List Char) (pathExists : Bool)
      (content : List Byte),
      (loadFile path pathExists suffix content = .notFound path ↔
        pathExists = false) ∧
      (loadFile path pathExists suffix content = .formatError ↔
        pathExists = true ∧
        lowerChars suffix ≠ '.' :: 'p' :: 'h' :: 'p' :: []) ∧
      (loadFile path pathExists suffix content = .encodingError ↔
        (pathExists = true ∧
         lowerChars suffix = '.' :: 'p' :: 'h' :: 'p' :: [] ∧
         ∀ e ∈ encodingCandidates, decodeWith e content = none)) ∧
      loadFile path pathExists suffix content ≠ .encodingError := by
  intro path suffix pathExists content
  cases pathExists with
  | false =>
    have hload : loadFile path false suffix content = .notFound path := by
      unfold loadFile
      rw [if_pos rfl]
    rw [hload]
    refine ⟨by simp, by simp, by simp, by simp⟩
  | true =>
    by_cases hfmt : lowerChars suffix = '.' :: 'p' :: 'h' :: 'p' :: []
    · cases hfd : firstDecode content with
      | none => exact absurd hfd (firstDecode_ne_none content)
      | some te =>
        have hload : loadFile path true suffix content =
            .ok te.1 te.2 (extractTranslations te.1) := by
          unfold loadFile
          rw [if_neg (by simp), if_neg (by simpa using hfmt), hfd]
        rw [hload]
        refine ⟨by simp, ?_, ?_, by simp⟩
        · simp [hfmt]
        · constructor
          · intro hh; exact absurd hh (by simp)
          · rintro ⟨-, -, hall⟩
            exact absurd ((firstDecodeGo_none_iff content
              encodingCandidates).mpr hall) (firstDecode_ne_none content)
    · have hload : loadFile path true suffix content = .formatError := by
        unfold loadFile
        rw [if_neg (by simp), if_pos (by simpa using hfmt)]
      rw [hload]
      refine ⟨by simp, by simp [hfmt], ?_, by simp⟩
      constructor
      · intro hh; exact absurd hh (by simp)
      · rintro ⟨-, hsuf, -⟩
        exact absurd hsuf hfmt

/-- Witness for the amended C4 at a concrete missing path. -/
theorem c4_load_errors_witness :
    loadFile ('a' :: []) false ('.' :: 'p' :: 'h' :: 'p' :: []) [] =
      .notFound ('a' :: []) :=
  (c4_load_errors ('a' :: []) ('.' :: 'p' :: 'h' :: 'p' :: []) false
    []).1.mpr rfl

end WefrhTrans
